import Mathlib

/-!
# Serpentine wiring mapper of `software/gen_matrix_pins.c`

A shallow embedding of the mapping pass of `main` (lines 24-60) and the
properties of the grid `matrix_pins` it fills.

The pass never reads `matrix_pins`; its effect on memory is the sequence of
stores it performs.  The embedding therefore has three layers:

* `body`      one iteration of the inner `for` loop (lines 31-58): the stores it
              performs, in program order, and the new values of `row` and
              `direction`;
* `rungLoop`  the inner loop of one rung (lines 26-59), `mapStores` the outer
              loop (lines 24-60), whose bound is the constant `LED_PINS_SIZE`, a
              parameter of its own beside the pin table;
* `runStores` the replay of the stores on the zero-initialised grid, every
              index checked against the array bounds.

The print loops of lines 71-76 are `serialize`: the text written to the file, as a
list of characters.

Array accesses are checked: an index outside the array is `IndexOutOfRange`
instead of C's undefined behaviour.
-/

namespace GenMatrixPins

/-! ## Configuration (lines 13-17) -/

/-- The table `led_pins[]` of line 13. -/
def led_pins : List Int :=
  [5, 4, 3, 9, 2, 8, 1, 7, 0, 6, 22, 16, 23, 24, 21, 14, 19, 26, 18, 15, 20, 28, 17, 25, 13,
   27, 12, 10, 11]

/-- Line 14. -/
def LED_PINS_SIZE : Nat := 29

/-- Line 15. -/
def NUM_ROWS : Nat := 28

/-- Line 16. -/
def NUM_COLS : Nat := 20

/-! ## Data model -/

/-- The only failure of the embedding: an array index outside its array. -/
inductive MapError where
  | IndexOutOfRange
  deriving DecidableEq, Repr

/-- The array `matrix_pins[rows][cols][2]`: a list of rows, each a list of cells
`(positive, negative)`, i.e. `(matrix_pins[r][c][0], matrix_pins[r][c][1])`. -/
abbrev Grid := List (List (Int × Int))

/-- The initial value `= {0}` of line 17. -/
def zeroGrid (rows cols : Nat) : Grid :=
  List.replicate rows (List.replicate cols (0, 0))

/-- The walk variables of the inner loop: `row` and `direction`. -/
structure Walk where
  row : Nat
  direction : Nat
  deriving DecidableEq, Repr

/-- One assignment `matrix_pins[row][col][term] = pin`.  The fields `rung` (the
outer index `i`) and `direction` (the value of `direction` when the assignment
runs) record who performed it; they do not influence the grid. -/
structure Store where
  rung : Nat
  direction : Nat
  row : Nat
  col : Nat
  term : Nat
  pin : Int
  deriving DecidableEq, Repr

/-! ## The mapping pass -/

/-- Lines 31-58: one iteration of the inner loop for rung `i` at column `col`, started
with walk variables `w`.  Returns the stores in program order and the new walk
variables. -/
def body (rows i : Nat) (pin : Int) (col : Nat) (w : Walk) : List Store × Walk :=
  if w.direction = 0 then
    -- ascending case
    let s1 : List Store :=
      if w.row ≠ rows then [⟨i, w.direction, w.row, col, 0, pin⟩] else []
    if w.row ≠ 0 then
      (s1 ++ [⟨i, w.direction, w.row - 1, col, 1, pin⟩], ⟨w.row - 1, w.direction⟩)
    else
      (s1, ⟨w.row, 1⟩)
  else
    -- descending case
    let s1 : List Store :=
      if w.row ≠ 0 then [⟨i, w.direction, w.row - 1, col, 1, pin⟩] else []
    if w.row ≠ rows then
      (s1 ++ [⟨i, w.direction, w.row, col, 0, pin⟩], ⟨w.row + 1, w.direction⟩)
    else
      (s1, ⟨w.row, 0⟩)

/-- Lines 26 and 28: the walk variables a rung starts with. -/
def seed (i : Nat) : Walk := ⟨i, i % 2⟩

/-- Lines 29-59: the inner loop of rung `i`, `col` running over `0 .. cols-1`.  Returns
the stores of the rung in program order and the final walk variables. -/
def rungLoop (rows i : Nat) (pin : Int) (cols : Nat) : List Store × Walk :=
  (List.range cols).foldl
    (fun acc col => ((acc.1 ++ (body rows i pin col acc.2).1), (body rows i pin col acc.2).2))
    ([], seed i)

/-- Line 27: the read `led_pins[row]` with `row = i`, checked. -/
def readPin (pins : List Int) (i : Nat) : Except MapError Int :=
  match pins[i]? with
  | some pin => .ok pin
  | none => .error .IndexOutOfRange

/-- Lines 24-60: the outer loop, `i` running over `0 .. size-1`, where `size` is the
constant `LED_PINS_SIZE` of line 14: a bound of its own, not the number of entries of the
pin table.  Returns every store of the pass in program order; a rung index outside the
table is `IndexOutOfRange`. -/
def mapStores (pins : List Int) (size rows cols : Nat) : Except MapError (List Store) :=
  (List.range size).foldlM
    (fun acc i => do
      let pin ← readPin pins i
      pure (acc ++ (rungLoop rows i pin cols).1))
    []

/-- The assignment `g[r][c][t] = v` on a grid (indices assumed in range). -/
def setSlot (g : Grid) (r c t : Nat) (v : Int) : Grid :=
  g.modify (fun cells => cells.modify (fun cell => if t = 0 then (v, cell.2) else (cell.1, v)) c) r

/-- One store on the array `matrix_pins[rows][cols][2]`, every index checked. -/
def store (rows cols : Nat) (g : Grid) (s : Store) : Except MapError Grid :=
  if s.row < rows ∧ s.col < cols ∧ s.term < 2 then
    .ok (setSlot g s.row s.col s.term s.pin)
  else
    .error .IndexOutOfRange

/-- Replay of a sequence of stores, first to last. -/
def runStores (rows cols : Nat) (ss : List Store) (g : Grid) : Except MapError Grid :=
  ss.foldlM (store rows cols) g

/-- The mapping pass: the grid left by lines 24-60 when the pin table is `pins`, the
outer loop bound `LED_PINS_SIZE` is `size` and the array is `matrix_pins[rows][cols][2]`. -/
def mapPass (pins : List Int) (size rows cols : Nat) : Except MapError Grid := do
  let ss ← mapStores pins size rows cols
  runStores rows cols ss (zeroGrid rows cols)

/-- The slot `g[r][c][t]` of a grid, `none` outside the array. -/
def slot (g : Grid) (r c t : Nat) : Option Int :=
  match g[r]? with
  | none => none
  | some cells =>
    match cells[c]? with
    | none => none
    | some cell => if t = 0 then some cell.1 else if t = 1 then some cell.2 else none

/-- The walk variables of rung `i` at the start of its iteration for column `c`
(after `c` iterations of the inner loop).  The new walk variables of `body` do not depend
on the pin, so the pin is taken as `0` here (`body_snd`, `rungLoop_snd`). -/
def walk (rows i : Nat) : Nat → Walk
  | 0 => seed i
  | c + 1 => (body rows i 0 c (walk rows i c)).2

/-! ## Derived notions used in the statements and proofs -/

/-- The slot `matrix_pins[r][c][t]` after the mapping pass of the program as configured
(lines 13-17); `none` if the pass fails or the index is outside the array. -/
def matrix_pins (r c t : Nat) : Option Int :=
  match mapPass led_pins LED_PINS_SIZE NUM_ROWS NUM_COLS with
  | .ok g => slot g r c t
  | .error _ => none

/-- Every store of the pass in program order, as a closed expression (the pass itself
yields it when every rung index is inside the pin table, `mapStores_eq`). -/
def allStores (pins : List Int) (size rows cols : Nat) : List Store :=
  (List.range size).flatMap (fun i => (rungLoop rows i (pins.getD i 0) cols).1)

/-- The stores of the pass at column `c`, in program order. -/
def colStores (pins : List Int) (size rows c : Nat) : List Store :=
  (List.range size).flatMap (fun i => (body rows i (pins.getD i 0) c (walk rows i c)).1)

/-- The value of the slot `(r, c, t)` after replaying `ss`, given its value `v` before
(`none`: no such slot). -/
def replaySlot (ss : List Store) (r c t : Nat) (v : Option Int) : Option Int :=
  ss.foldl (fun v s => if s.row = r ∧ s.col = c ∧ s.term = t then v.map (fun _ => s.pin) else v) v

/-- Rung `i` performs a store to the slot `(r, c, t)` in the sequence `ss`. -/
def writes (ss : List Store) (i r c t : Nat) : Prop :=
  ∃ s, s ∈ ss ∧ s.rung = i ∧ s.row = r ∧ s.col = c ∧ s.term = t

/-- The position of a walk on the closed track of length `2 * rows + 2` that a rung runs
around: descending at row `r` is position `r`, ascending at row `r` is position
`2 * rows + 1 - r`. -/
def phase (rows : Nat) (w : Walk) : Nat :=
  if w.direction = 0 then 2 * rows + 1 - w.row else w.row

/-- Closed form of `(walk rows i c).row` (for `i ≤ rows`): every iteration advances the
position on the track by one. -/
def walkRow (rows i c : Nat) : Nat :=
  if (phase rows (seed i) + c) % (2 * rows + 2) ≤ rows then
    (phase rows (seed i) + c) % (2 * rows + 2)
  else
    2 * rows + 1 - (phase rows (seed i) + c) % (2 * rows + 2)

/-- Closed form, in the program's configuration, of the rung whose `row` is `p` at
column `c`: when `p + c` is even it is `p + c` if `p + c ≤ 28` and `57 - p - c` otherwise;
when `p + c` is odd it is `c - p - 1` if `p < c` and `p - c` otherwise. -/
def rungAt (p c : Nat) : Nat :=
  if (p + c) % 2 = 0 then
    if p + c ≤ 28 then p + c else 57 - p - c
  else
    if p < c then c - p - 1 else p - c

/-- The walk variables before an iteration of the inner loop that ends with the walk
variables `w` (for `w.row ≤ rows`): the inverse of the walk step of `body`. -/
def prevWalk (rows : Nat) (w : Walk) : Walk :=
  if w.direction = 0 then
    if w.row = rows then ⟨rows, 1⟩ else ⟨w.row + 1, 0⟩
  else
    if w.row = 0 then ⟨0, 0⟩ else ⟨w.row - 1, 1⟩

/-- The stores of `ss` to the slot `(r, c, t)`, in program order. -/
def storesTo (ss : List Store) (r c t : Nat) : List Store :=
  ss.filter (fun s => decide (s.row = r ∧ s.col = c ∧ s.term = t))

/-! ## The serializer (lines 69-76) -/

/-- The conversion `%2d` of `fprintf`: the decimal digits of `v`, with a leading `-` when
`v` is negative, padded on the left with spaces to a width of at least 2. -/
def fmt2d (v : Int) : List Char :=
  let digits : List Char :=
    if v < 0 then '-' :: Nat.toDigits 10 v.natAbs else Nat.toDigits 10 v.toNat
  List.replicate (2 - digits.length) ' ' ++ digits

/-- Line 73: the text of `fprintf(file, "(%2d,%2d) ", a, b)`. -/
def printCell (a b : Int) : List Char :=
  ['('] ++ fmt2d a ++ [','] ++ fmt2d b ++ [')', ' ']

/-- The read `matrix_pins[r][c][t]` of line 73, checked. -/
def readSlot (g : Grid) (r c t : Nat) : Except MapError Int :=
  match slot g r c t with
  | some v => .ok v
  | none => .error .IndexOutOfRange

/-- Lines 72-75: the inner loop over the columns of `row` and the newline after it; `out`
is the text written so far. -/
def printRow (cols : Nat) (g : Grid) (row : Nat) (out : List Char) :
    Except MapError (List Char) := do
  let out2 ← (List.range cols).foldlM
    (fun acc col => do
      let a ← readSlot g row col 0
      let b ← readSlot g row col 1
      pure (acc ++ printCell a b))
    out
  pure (out2 ++ ['\n'])

/-- Lines 71-76: the text written to the file for the grid `g`. -/
def serialize (rows cols : Nat) (g : Grid) : Except MapError (List Char) :=
  (List.range rows).foldlM (fun acc row => printRow cols g row acc) []

/-- A number below 100 right-aligned in a field of 2 characters. -/
def field2 (n : Nat) : List Char :=
  if n < 10 then [' ', Nat.digitChar n] else [Nat.digitChar (n / 10), Nat.digitChar (n % 10)]

/-- The 8 characters `(PP,NN) ` of a cell with positive pin `p` and negative pin `n`. -/
def cell8 (p n : Nat) : List Char :=
  ['('] ++ field2 p ++ [','] ++ field2 n ++ [')', ' ']

/-- One line of the output: the cells of a row in column order, then a newline. -/
def lineText (cols : Nat) (P N : Nat → Nat) : List Char :=
  (List.range cols).flatMap (fun c => cell8 (P c) (N c)) ++ ['\n']

/-- The whole output: the lines of the rows in row order. -/
def gridText (rows cols : Nat) (P N : Nat → Nat → Nat) : List Char :=
  (List.range rows).flatMap (fun r => lineText cols (P r) (N r))

theorem mem_body {rows i : Nat} {pin : Int} {col : Nat} {w : Walk} {s : Store} :
    s ∈ (body rows i pin col w).1 ↔
      (s = ⟨i, w.direction, w.row, col, 0, pin⟩ ∧ w.row ≠ rows) ∨
      (s = ⟨i, w.direction, w.row - 1, col, 1, pin⟩ ∧ w.row ≠ 0) := by
  unfold body
  split_ifs <;> simp_all
  exact or_comm

theorem body_snd (rows i : Nat) (pin : Int) (col : Nat) (w : Walk) :
    (body rows i pin col w).2 = (body rows i 0 col w).2 := by
  unfold body
  split_ifs <;> rfl

theorem rungLoop_succ (rows i : Nat) (pin : Int) (n : Nat) :
    rungLoop rows i pin (n + 1) =
      ((rungLoop rows i pin n).1 ++ (body rows i pin n (rungLoop rows i pin n).2).1,
        (body rows i pin n (rungLoop rows i pin n).2).2) := by
  simp [rungLoop, List.range_succ, List.foldl_append]

theorem rungLoop_snd (rows i : Nat) (pin : Int) (n : Nat) :
    (rungLoop rows i pin n).2 = walk rows i n := by
  induction n with
  | zero => rfl
  | succ n ih => rw [rungLoop_succ, walk, ← ih, body_snd]

theorem mem_rungLoop {rows i : Nat} {pin : Int} {n : Nat} {s : Store} :
    s ∈ (rungLoop rows i pin n).1 ↔ ∃ c, c < n ∧ s ∈ (body rows i pin c (walk rows i c)).1 := by
  induction n with
  | zero => simp [rungLoop]
  | succ n ih =>
    rw [rungLoop_succ, List.mem_append, ih, rungLoop_snd]
    constructor
    · rintro (⟨c, hc, h⟩ | h)
      · exact ⟨c, by omega, h⟩
      · exact ⟨n, by omega, h⟩
    · rintro ⟨c, hc, h⟩
      by_cases hcn : c = n
      · subst hcn; exact Or.inr h
      · exact Or.inl ⟨c, by omega, h⟩

theorem readPin_of_lt {pins : List Int} {i : Nat} (h : i < pins.length) :
    readPin pins i = .ok (pins.getD i 0) := by
  unfold readPin
  simp [List.getD, List.getElem?_eq_getElem h]

theorem mapStores_upto (pins : List Int) (rows cols n : Nat) (hn : n ≤ pins.length) :
    (List.range n).foldlM
      (fun acc i => do
        let pin ← readPin pins i
        pure (acc ++ (rungLoop rows i pin cols).1))
      ([] : List Store) =
    (.ok ((List.range n).flatMap (fun i => (rungLoop rows i (pins.getD i 0) cols).1)) :
      Except MapError (List Store)) := by
  induction n with
  | zero => rfl
  | succ n ih =>
    rw [List.range_succ, List.foldlM_append, ih (by omega)]
    simp [readPin_of_lt (show n < pins.length by omega), List.flatMap_append, bind, Except.bind, pure, Except.pure]

/-- The pass reads every entry it needs when the loop bound is inside the pin table. -/
theorem mapStores_eq (pins : List Int) (size rows cols : Nat) (h : size ≤ pins.length) :
    mapStores pins size rows cols = .ok (allStores pins size rows cols) :=
  mapStores_upto pins rows cols size h

/-- The pass fails on the read of the first rung index outside the pin table. -/
theorem mapStores_error (pins : List Int) (size rows cols : Nat) (h : pins.length < size) :
    mapStores pins size rows cols = .error .IndexOutOfRange := by
  unfold mapStores
  induction size with
  | zero => omega
  | succ n ih =>
    rw [List.range_succ, List.foldlM_append]
    by_cases hn : pins.length < n
    · rw [ih hn]
      rfl
    · have hlen : n = pins.length := by omega
      have hread : readPin pins n = .error .IndexOutOfRange := by
        unfold readPin
        rw [List.getElem?_eq_none (by omega)]
      rw [mapStores_upto pins rows cols n (by omega)]
      simp [hread, bind, Except.bind, pure, Except.pure]

theorem mapStores_ok_iff {pins : List Int} {size rows cols : Nat} {ss : List Store} :
    mapStores pins size rows cols = .ok ss ↔
      size ≤ pins.length ∧ ss = allStores pins size rows cols := by
  by_cases h : size ≤ pins.length
  · rw [mapStores_eq _ _ _ _ h]
    constructor
    · intro e
      injection e with e
      exact ⟨h, e.symm⟩
    · rintro ⟨_, rfl⟩
      rfl
  · rw [mapStores_error _ _ _ _ (by omega)]
    constructor
    · intro e
      cases e
    · rintro ⟨h2, _⟩
      exact absurd h2 h

theorem mem_allStores {pins : List Int} {size rows cols : Nat} {s : Store} :
    s ∈ allStores pins size rows cols ↔
      ∃ i, i < size ∧ ∃ c, c < cols ∧
        s ∈ (body rows i (pins.getD i 0) c (walk rows i c)).1 := by
  simp only [allStores, List.mem_flatMap, List.mem_range, mem_rungLoop]

theorem walk_succ (rows i c : Nat) :
    walk rows i (c + 1) = (body rows i 0 c (walk rows i c)).2 := rfl

/-- A rung seeded at a row `i ≤ rows` never leaves `0 .. rows`. -/
theorem walk_row_le {rows i : Nat} (hi : i ≤ rows) (c : Nat) : (walk rows i c).row ≤ rows := by
  induction c with
  | zero => exact hi
  | succ c ih =>
    rw [walk_succ]
    unfold body
    split_ifs <;> simp <;> omega

/-- Parity invariant of the walk: `row + direction + col` stays even and `direction` is
`0` or `1`. -/
theorem walk_parity (rows i c : Nat) :
    ((walk rows i c).row + (walk rows i c).direction + c) % 2 = 0 ∧
      (walk rows i c).direction ≤ 1 := by
  induction c with
  | zero => simp only [walk, seed]; omega
  | succ c ih =>
    rw [walk_succ]
    unfold body
    split_ifs <;> simp <;> omega

theorem runStores_ok {rows cols : Nat} (ss : List Store) (g : Grid)
    (h : ∀ s ∈ ss, s.row < rows ∧ s.col < cols ∧ s.term < 2) :
    ∃ g2, runStores rows cols ss g = .ok g2 := by
  induction ss generalizing g with
  | nil => exact ⟨g, rfl⟩
  | cons s ss ih =>
    have hs := h s (List.mem_cons_self _ _)
    obtain ⟨g2, hg2⟩ := ih (setSlot g s.row s.col s.term s.pin)
      (fun t ht => h t (List.mem_cons_of_mem _ ht))
    refine ⟨g2, ?_⟩
    unfold runStores at hg2 ⊢
    rw [List.foldlM_cons]
    simp only [store, hs, and_self, if_true]
    exact hg2

/-- Bounds of every store of a pass that runs at most `rows + 1` rungs. -/
theorem allStores_in_bounds {pins : List Int} {size rows cols : Nat}
    (hlen : size ≤ rows + 1) {s : Store} (hs : s ∈ allStores pins size rows cols) :
    s.rung < size ∧ s.row < rows ∧ s.col < cols ∧ s.term < 2 := by
  obtain ⟨i, hi, c, hc, hmem⟩ := mem_allStores.mp hs
  have hrow := walk_row_le (show i ≤ rows by omega) c
  rcases mem_body.mp hmem with ⟨rfl, h⟩ | ⟨rfl, h⟩
  · exact ⟨hi, by simp; omega, hc, by simp⟩
  · exact ⟨hi, by simp; omega, hc, by simp⟩

theorem mapPass_eq (pins : List Int) (size rows cols : Nat) (h : size ≤ pins.length) :
    mapPass pins size rows cols =
      runStores rows cols (allStores pins size rows cols) (zeroGrid rows cols) := by
  unfold mapPass
  rw [mapStores_eq _ _ _ _ h]
  rfl

theorem mapPass_error (pins : List Int) (size rows cols : Nat) (h : pins.length < size) :
    mapPass pins size rows cols = .error .IndexOutOfRange := by
  unfold mapPass
  rw [mapStores_error _ _ _ _ h]
  rfl

theorem mapPass_ok_of_length_le {pins : List Int} {size rows cols : Nat}
    (hsize : size ≤ pins.length) (hlen : size ≤ rows + 1) :
    ∃ g, mapPass pins size rows cols = .ok g := by
  rw [mapPass_eq _ _ _ _ hsize]
  exact runStores_ok _ _ (fun s hs => (allStores_in_bounds hlen hs).2)

/-- A pass that succeeds has its loop bound inside the pin table. -/
theorem size_le_of_mapPass_ok {pins : List Int} {size rows cols : Nat} {g : Grid}
    (h : mapPass pins size rows cols = .ok g) : size ≤ pins.length := by
  by_contra hlt
  rw [mapPass_error _ _ _ _ (by omega)] at h
  cases h

/-- The replay fails as soon as one store is outside the grid. -/
theorem runStores_error {rows cols : Nat} (ss : List Store) (g : Grid)
    (h : ∃ s, s ∈ ss ∧ ¬ (s.row < rows ∧ s.col < cols ∧ s.term < 2)) :
    runStores rows cols ss g = .error .IndexOutOfRange := by
  induction ss generalizing g with
  | nil =>
    obtain ⟨s, hs, _⟩ := h
    cases hs
  | cons a ss ih =>
    unfold runStores
    rw [List.foldlM_cons]
    by_cases ha : a.row < rows ∧ a.col < cols ∧ a.term < 2
    · have hrest : ∃ s, s ∈ ss ∧ ¬ (s.row < rows ∧ s.col < cols ∧ s.term < 2) := by
        obtain ⟨s, hs, hbad⟩ := h
        rcases List.mem_cons.mp hs with rfl | hs
        · exact absurd ha hbad
        · exact ⟨s, hs, hbad⟩
      have := ih (setSlot g a.row a.col a.term a.pin) hrest
      unfold runStores at this
      simp only [store, ha, and_self, if_true, bind, Except.bind]
      exact this
    · simp only [store, ha, if_false, bind, Except.bind]

/-- Stores of the pass to the negative terminal of row 0 come from a rung whose `row` is 1;
stores to the positive terminal of row `r` from a rung whose `row` is `r`. -/
theorem store_walk {pins : List Int} {size rows cols : Nat} {s : Store}
    (hs : s ∈ allStores pins size rows cols) :
    s.col < cols ∧ s.rung < size ∧
    (walk rows s.rung s.col).direction = s.direction ∧
    ((s.term = 0 ∧ (walk rows s.rung s.col).row = s.row ∧ s.row ≠ rows) ∨
     (s.term = 1 ∧ (walk rows s.rung s.col).row = s.row + 1)) := by
  obtain ⟨i, hi, c, hc, hmem⟩ := mem_allStores.mp hs
  rcases mem_body.mp hmem with ⟨rfl, h⟩ | ⟨rfl, h⟩
  · exact ⟨hc, hi, rfl, Or.inl ⟨rfl, rfl, h⟩⟩
  · refine ⟨hc, hi, rfl, Or.inr ⟨rfl, ?_⟩⟩
    simp only
    omega

theorem slot_setSlot (g : Grid) (r c t : Nat) (v : Int) (ht : t < 2) (r2 c2 t2 : Nat) :
    slot (setSlot g r c t v) r2 c2 t2 =
      if r = r2 ∧ c = c2 ∧ t = t2 then (slot g r2 c2 t2).map (fun _ => v) else slot g r2 c2 t2 := by
  unfold slot setSlot
  rw [List.getElem?_modify]
  cases hg : g[r2]? with
  | none => simp
  | some cells =>
    simp only [Option.map_eq_map, Option.map_some']
    by_cases hr : r = r2
    · simp only [hr, if_true, true_and]
      rw [List.getElem?_modify]
      cases hl : cells[c2]? with
      | none => simp
      | some cell =>
        simp only [Option.map_eq_map, Option.map_some']
        by_cases hc : c = c2
        · simp only [hc, if_true, true_and]
          interval_cases t <;> by_cases h0 : t2 = 0 <;> by_cases h1 : t2 = 1 <;> simp_all
          · rw [if_neg (Ne.symm h0)]
          · rw [if_neg (Ne.symm h1)]
        · simp [hc]
    · simp [hr]

theorem slot_runStores {rows cols : Nat} (ss : List Store) (g g2 : Grid)
    (h : runStores rows cols ss g = .ok g2) (r c t : Nat) :
    slot g2 r c t = replaySlot ss r c t (slot g r c t) := by
  induction ss generalizing g with
  | nil =>
    simp only [runStores, List.foldlM_nil, pure, Except.pure, Except.ok.injEq] at h
    subst h; rfl
  | cons s ss ih =>
    unfold runStores at h
    rw [List.foldlM_cons] at h
    unfold store at h
    split_ifs at h with hs
    · simp only [bind, Except.bind] at h
      rw [ih _ h, slot_setSlot _ _ _ _ _ hs.2.2]
      simp only [replaySlot, List.foldl_cons]
    · simp [bind, Except.bind] at h

theorem replaySlot_filter (ss : List Store) (r c t : Nat) (v : Option Int) :
    replaySlot (ss.filter (fun s => decide (s.col = c))) r c t v = replaySlot ss r c t v := by
  induction ss generalizing v with
  | nil => rfl
  | cons s ss ih =>
    by_cases hc : s.col = c
    · rw [List.filter_cons_of_pos (by simpa using hc)]
      simp only [replaySlot, List.foldl_cons] at ih ⊢
      exact ih _
    · rw [List.filter_cons_of_neg (by simpa using hc)]
      simp only [replaySlot, List.foldl_cons, hc, false_and, and_false, if_false] at ih ⊢
      exact ih _

theorem filter_body (rows i : Nat) (pin : Int) (n : Nat) (w : Walk) (c : Nat) :
    (body rows i pin n w).1.filter (fun s => decide (s.col = c)) =
      if n = c then (body rows i pin n w).1 else [] := by
  split_ifs with h
  · rw [List.filter_eq_self]
    intro s hs
    rcases mem_body.mp hs with ⟨rfl, _⟩ | ⟨rfl, _⟩ <;> simpa using h
  · rw [List.filter_eq_nil_iff]
    intro s hs
    rcases mem_body.mp hs with ⟨rfl, _⟩ | ⟨rfl, _⟩ <;> simpa using h

theorem filter_rungLoop (rows i : Nat) (pin : Int) (n c : Nat) :
    (rungLoop rows i pin n).1.filter (fun s => decide (s.col = c)) =
      if c < n then (body rows i pin c (walk rows i c)).1 else [] := by
  induction n with
  | zero => simp [rungLoop]
  | succ n ih =>
    rw [rungLoop_succ, List.filter_append, ih, filter_body, rungLoop_snd]
    by_cases h1 : c < n
    · have h2 : n ≠ c := by omega
      have h3 : c < n + 1 := by omega
      simp [h1, h2, h3]
    · by_cases h2 : n = c
      · subst h2; simp
      · have h3 : ¬ c < n + 1 := by omega
        simp [h1, h2, h3]

theorem filter_allStores (pins : List Int) (size rows : Nat) {cols c : Nat} (hc : c < cols) :
    (allStores pins size rows cols).filter (fun s => decide (s.col = c)) = colStores pins size rows c := by
  unfold allStores colStores
  rw [List.filter_flatMap]
  simp only [filter_rungLoop, hc, if_true]

theorem slot_zeroGrid (rows cols r c t : Nat) :
    slot (zeroGrid rows cols) r c t = if r < rows ∧ c < cols ∧ t < 2 then some 0 else none := by
  unfold slot zeroGrid
  by_cases hr : r < rows
  · by_cases hc : c < cols
    · simp only [List.getElem?_replicate, hr, hc, if_true, true_and]
      by_cases h0 : t = 0
      · simp [h0]
      · by_cases h1 : t = 1
        · simp [h1]
        · have : ¬ t < 2 := by omega
          simp [h0, h1, this]
    · simp [List.getElem?_replicate, hr, hc]
  · simp [List.getElem?_replicate, hr]

/-- The final value of a slot is the replay of the stores of its column on the initial
value of the slot. -/
theorem slot_mapPass {pins : List Int} {size rows cols : Nat} {g : Grid}
    (h : mapPass pins size rows cols = .ok g) (r : Nat) {c : Nat} (hc : c < cols) (t : Nat) :
    slot g r c t =
      replaySlot (colStores pins size rows c) r c t (if r < rows ∧ t < 2 then some 0 else none) := by
  rw [mapPass_eq _ _ _ _ (size_le_of_mapPass_ok h)] at h
  rw [slot_runStores _ _ _ h, slot_zeroGrid, ← replaySlot_filter,
    filter_allStores pins size rows hc]
  simp only [hc, true_and]

theorem mem_colStores {pins : List Int} {size rows c : Nat} {s : Store} :
    s ∈ colStores pins size rows c ↔
      ∃ i, i < size ∧ s ∈ (body rows i (pins.getD i 0) c (walk rows i c)).1 := by
  simp only [colStores, List.mem_flatMap, List.mem_range]

/-- Replay on a slot all of whose stores carry the pin `p`. -/
theorem replaySlot_const (ss : List Store) (r c t : Nat) (p : Int)
    (h : ∀ s ∈ ss, s.row = r → s.col = c → s.term = t → s.pin = p) (v : Int) :
    replaySlot ss r c t (some v) =
      if ∃ s ∈ ss, s.row = r ∧ s.col = c ∧ s.term = t then some p else some v := by
  induction ss generalizing v with
  | nil => simp [replaySlot]
  | cons s ss ih =>
    have ih2 := fun v => ih (fun s2 hs2 => h s2 (List.mem_cons_of_mem _ hs2)) v
    simp only [replaySlot, List.foldl_cons] at ih2 ⊢
    by_cases hm : s.row = r ∧ s.col = c ∧ s.term = t
    · have hp := h s (List.mem_cons_self _ _) hm.1 hm.2.1 hm.2.2
      rw [if_pos hm, Option.map_some', ih2, hp]
      have : ∃ s2 ∈ s :: ss, s2.row = r ∧ s2.col = c ∧ s2.term = t :=
        ⟨s, List.mem_cons_self _ _, hm⟩
      rw [if_pos this]
      split_ifs <;> rfl
    · rw [if_neg hm, ih2]
      have : (∃ s2 ∈ s :: ss, s2.row = r ∧ s2.col = c ∧ s2.term = t) ↔
          ∃ s2 ∈ ss, s2.row = r ∧ s2.col = c ∧ s2.term = t := by
        constructor
        · rintro ⟨s2, hs2, h2⟩
          rcases List.mem_cons.mp hs2 with rfl | hs2
          · exact absurd h2 hm
          · exact ⟨s2, hs2, h2⟩
        · rintro ⟨s2, hs2, h2⟩
          exact ⟨s2, List.mem_cons_of_mem _ hs2, h2⟩
      simp only [this]

/-- The positive terminal of `(r, c)` holds the pin of rung `i` when `i` is the only rung
whose `row` is `r` at column `c`. -/
theorem slot_pos_of_unique {pins : List Int} {size rows cols : Nat} {g : Grid}
    (h : mapPass pins size rows cols = .ok g) {r c i : Nat} (hr : r < rows) (hc : c < cols)
    (hi : i < size) (hw : (walk rows i c).row = r)
    (hu : ∀ j, j < size → (walk rows j c).row = r → j = i) :
    slot g r c 0 = some (pins.getD i 0) := by
  rw [slot_mapPass h r hc 0, if_pos ⟨hr, by decide⟩, replaySlot_const _ _ _ _ (pins.getD i 0)]
  · rw [if_pos]
    refine ⟨⟨i, (walk rows i c).direction, r, c, 0, pins.getD i 0⟩, ?_, rfl, rfl, rfl⟩
    refine mem_colStores.mpr ⟨i, hi, mem_body.mpr (Or.inl ⟨by rw [hw], by omega⟩)⟩
  · intro s hs h1 _ h3
    obtain ⟨j, hj, hmem⟩ := mem_colStores.mp hs
    rcases mem_body.mp hmem with ⟨rfl, _⟩ | ⟨rfl, _⟩
    · have := hu j hj h1
      subst this; rfl
    · simp at h3

/-- The negative terminal of `(r, c)` holds the pin of rung `i` when `i` is the only rung
whose `row` is `r + 1` at column `c`. -/
theorem slot_neg_of_unique {pins : List Int} {size rows cols : Nat} {g : Grid}
    (h : mapPass pins size rows cols = .ok g) {r c i : Nat} (hr : r < rows) (hc : c < cols)
    (hi : i < size) (hw : (walk rows i c).row = r + 1)
    (hu : ∀ j, j < size → (walk rows j c).row = r + 1 → j = i) :
    slot g r c 1 = some (pins.getD i 0) := by
  rw [slot_mapPass h r hc 1, if_pos ⟨hr, by decide⟩, replaySlot_const _ _ _ _ (pins.getD i 0)]
  · rw [if_pos]
    refine ⟨⟨i, (walk rows i c).direction, r, c, 1, pins.getD i 0⟩, ?_, rfl, rfl, rfl⟩
    refine mem_colStores.mpr ⟨i, hi, mem_body.mpr (Or.inr ⟨by rw [hw]; rfl, by omega⟩)⟩
  · intro s hs h1 _ h3
    obtain ⟨j, hj, hmem⟩ := mem_colStores.mp hs
    rcases mem_body.mp hmem with ⟨rfl, _⟩ | ⟨rfl, hne⟩
    · simp at h3
    · have := hu j hj (by simp only at h1; omega)
      subst this; rfl

/-- Who stores to a positive terminal. -/
theorem writes_pos_iff {pins : List Int} {size rows cols i r c : Nat} :
    writes (allStores pins size rows cols) i r c 0 ↔
      i < size ∧ c < cols ∧ (walk rows i c).row = r ∧ r ≠ rows := by
  unfold writes
  constructor
  · rintro ⟨s, hs, rfl, rfl, rfl, ht⟩
    obtain ⟨hc, hi, _, h | h⟩ := store_walk hs
    · exact ⟨hi, hc, h.2.1, h.2.2⟩
    · omega
  · rintro ⟨hi, hc, hw, hne⟩
    refine ⟨⟨i, (walk rows i c).direction, r, c, 0, pins.getD i 0⟩, ?_, rfl, rfl, rfl, rfl⟩
    exact mem_allStores.mpr ⟨i, hi, c, hc, mem_body.mpr (Or.inl ⟨by rw [hw], by omega⟩)⟩

/-- Who stores to a negative terminal. -/
theorem writes_neg_iff {pins : List Int} {size rows cols i r c : Nat} :
    writes (allStores pins size rows cols) i r c 1 ↔
      i < size ∧ c < cols ∧ (walk rows i c).row = r + 1 := by
  unfold writes
  constructor
  · rintro ⟨s, hs, rfl, rfl, rfl, ht⟩
    obtain ⟨hc, hi, _, h | h⟩ := store_walk hs
    · omega
    · exact ⟨hi, hc, h.2⟩
  · rintro ⟨hi, hc, hw⟩
    refine ⟨⟨i, (walk rows i c).direction, r, c, 1, pins.getD i 0⟩, ?_, rfl, rfl, rfl, rfl⟩
    exact mem_allStores.mpr
      ⟨i, hi, c, hc, mem_body.mpr (Or.inr ⟨by rw [hw]; rfl, by omega⟩)⟩

/-! ## Closed form of the walk -/

theorem phase_lt {rows : Nat} {w : Walk} (hr : w.row ≤ rows) :
    phase rows w < 2 * rows + 2 := by
  unfold phase
  split_ifs <;> omega

theorem succ_mod_track (m x : Nat) (hx : x < m) :
    (x + 1) % m = if x + 1 = m then 0 else x + 1 := by
  split_ifs with h
  · rw [h, Nat.mod_self]
  · exact Nat.mod_eq_of_lt (by omega)

theorem phase_body (rows i : Nat) (pin : Int) (col : Nat) {w : Walk} (hr : w.row ≤ rows) :
    phase rows (body rows i pin col w).2 = (phase rows w + 1) % (2 * rows + 2) := by
  rw [succ_mod_track _ _ (phase_lt hr)]
  unfold body phase
  split_ifs <;> dsimp only at * <;> omega

theorem phase_walk {rows i : Nat} (hi : i ≤ rows) (c : Nat) :
    phase rows (walk rows i c) = (phase rows (seed i) + c) % (2 * rows + 2) := by
  induction c with
  | zero =>
    have : phase rows (seed i) < 2 * rows + 2 := phase_lt hi
    rw [Nat.add_zero, Nat.mod_eq_of_lt this]
    rfl
  | succ c ih =>
    rw [walk_succ, phase_body rows i 0 c (walk_row_le hi c), ih,
      Nat.mod_add_mod, Nat.add_assoc]

theorem walk_row_eq {rows i : Nat} (hi : i ≤ rows) (c : Nat) :
    (walk rows i c).row = walkRow rows i c := by
  unfold walkRow
  rw [← phase_walk hi c]
  have h1 := walk_row_le hi c
  unfold phase
  split_ifs <;> omega

/-! ## The program's configuration -/

theorem led_pins_length : led_pins.length = LED_PINS_SIZE := rfl

theorem getElem?_led_pins {i : Nat} (hi : i < LED_PINS_SIZE) :
    led_pins[i]? = some (led_pins.getD i 0) := by
  have h : i < led_pins.length := hi
  simp [List.getD, List.getElem?_eq_getElem h]

/-- The pass of the program's configuration succeeds. -/
theorem pass_config_ok : ∃ g, mapPass led_pins LED_PINS_SIZE NUM_ROWS NUM_COLS = .ok g :=
  mapPass_ok_of_length_le (by decide) (by decide)

theorem walk_config {i : Nat} (hi : i < LED_PINS_SIZE) (c : Nat) :
    (walk NUM_ROWS i c).row = walkRow NUM_ROWS i c :=
  walk_row_eq (by unfold LED_PINS_SIZE at hi; unfold NUM_ROWS; omega) c

set_option maxRecDepth 100000 in
theorem rungAt_walkRow :
    ∀ c, c < NUM_COLS → ∀ p, p < LED_PINS_SIZE →
      rungAt p c < LED_PINS_SIZE ∧ walkRow NUM_ROWS (rungAt p c) c = p ∧
        ∀ j, j < LED_PINS_SIZE → walkRow NUM_ROWS j c = p → j = rungAt p c := by
  decide!

/-- At every column of the grid each position `p` in `0 .. 28` is the `row` of exactly one
rung, `rungAt p c`. -/
theorem rungAt_spec {c p : Nat} (hc : c < NUM_COLS) (hp : p < LED_PINS_SIZE) :
    rungAt p c < LED_PINS_SIZE ∧ (walk NUM_ROWS (rungAt p c) c).row = p ∧
      ∀ j, j < LED_PINS_SIZE → (walk NUM_ROWS j c).row = p → j = rungAt p c := by
  obtain ⟨h1, h2, h3⟩ := rungAt_walkRow c hc p hp
  refine ⟨h1, (walk_config h1 c).trans h2, ?_⟩
  intro j hj hw
  exact h3 j hj ((walk_config hj c).symm.trans hw)

set_option maxRecDepth 100000 in
theorem led_pins_injective :
    ∀ i, i < LED_PINS_SIZE → ∀ j, j < LED_PINS_SIZE → led_pins[i]? = led_pins[j]? → i = j := by
  decide!

set_option maxRecDepth 100000 in
/-- The rung below a cell meets the rung of the cell at one column only. -/
theorem crossing_once :
    ∀ r, r < NUM_ROWS → ∀ c, c < NUM_COLS → ∀ c2, c2 < NUM_COLS →
      walkRow NUM_ROWS (rungAt (r + 1) c) c2 = walkRow NUM_ROWS (rungAt r c) c2 + 1 →
        c2 = c := by
  decide!

set_option maxRecDepth 100000 in
theorem row0_rung :
    ∀ c, c < NUM_COLS →
      rungAt 0 c = 2 * (c / 2) ∧ (led_pins[2 * (c / 2)]? = some 5 ↔ c < 2) := by
  decide!

/-- The final grid of the program's configuration, slot by slot. -/
theorem matrix_pins_eq {r c : Nat} (hr : r < NUM_ROWS) (hc : c < NUM_COLS) :
    matrix_pins r c 0 = led_pins[rungAt r c]? ∧
      matrix_pins r c 1 = led_pins[rungAt (r + 1) c]? := by
  have hr2 : r < 28 := hr
  obtain ⟨g, hg⟩ := pass_config_ok
  obtain ⟨hi, hwi, hui⟩ := rungAt_spec (p := r) hc (by unfold LED_PINS_SIZE; omega)
  obtain ⟨hj, hwj, huj⟩ := rungAt_spec (p := r + 1) hc (by unfold LED_PINS_SIZE; omega)
  unfold matrix_pins
  rw [hg, getElem?_led_pins hi, getElem?_led_pins hj]
  exact ⟨slot_pos_of_unique hg hr hc hi hwi hui, slot_neg_of_unique hg hr hc hj hwj huj⟩

/-- In the program's configuration every cell has exactly one rung storing to its positive
terminal and exactly one, different, rung storing to its negative terminal. -/
theorem cell_writers_config {r c : Nat} (hr : r < NUM_ROWS) (hc : c < NUM_COLS) :
    ∃ i j, i ≠ j ∧
      (∀ k, writes (allStores led_pins LED_PINS_SIZE NUM_ROWS NUM_COLS) k r c 0 ↔ k = i) ∧
      (∀ k, writes (allStores led_pins LED_PINS_SIZE NUM_ROWS NUM_COLS) k r c 1 ↔ k = j) := by
  have hr2 : r < 28 := hr
  obtain ⟨hi, hwi, hui⟩ := rungAt_spec (p := r) hc (by unfold LED_PINS_SIZE; omega)
  obtain ⟨hj, hwj, huj⟩ := rungAt_spec (p := r + 1) hc (by unfold LED_PINS_SIZE; omega)
  refine ⟨rungAt r c, rungAt (r + 1) c, ?_, ?_, ?_⟩
  · intro h
    rw [h] at hwi
    omega
  · intro k
    rw [writes_pos_iff]
    constructor
    · rintro ⟨hk, _, hwk, _⟩
      exact hui k hk hwk
    · rintro rfl
      exact ⟨hi, hc, hwi, by unfold NUM_ROWS; omega⟩
  · intro k
    rw [writes_neg_iff]
    constructor
    · rintro ⟨hk, _, hwk⟩
      exact huj k hk hwk
    · rintro rfl
      exact ⟨hj, hc, hwj⟩

theorem store_rung1_col0 :
    (⟨1, 1, 0, 0, 1, 4⟩ : Store) ∈ allStores led_pins LED_PINS_SIZE NUM_ROWS NUM_COLS :=
  mem_allStores.mpr ⟨1, by decide, 0, by decide, by decide⟩

theorem store_rung28_col1 :
    (⟨28, 0, 27, 1, 0, 11⟩ : Store) ∈ allStores led_pins LED_PINS_SIZE NUM_ROWS NUM_COLS :=
  mem_allStores.mpr ⟨28, by decide, 1, by decide, by decide⟩

/-- Direction of the rung that stores to the negative terminal of row `0`. -/
theorem neg_row0_direction {pins : List Int} {size rows cols : Nat} {s : Store}
    (hs : s ∈ allStores pins size rows cols) (hrow : s.row = 0) (hterm : s.term = 1) :
    (walk rows s.rung s.col).row = 1 ∧ (walk rows s.rung s.col).direction = s.direction ∧
      (s.direction = 0 ↔ s.col % 2 = 1) ∧ (s.direction = 1 ↔ s.col % 2 = 0) := by
  obtain ⟨_, _, hd, h | h⟩ := store_walk hs
  · omega
  · have hp := walk_parity rows s.rung s.col
    rw [hd] at hp
    rw [h.2, hrow] at hp
    refine ⟨by rw [h.2, hrow], hd, ?_, ?_⟩ <;> omega

/-- Direction of the rung that stores to the positive terminal of row `rows - 1`. -/
theorem pos_last_row_direction {pins : List Int} {size rows cols : Nat} {s : Store}
    (hs : s ∈ allStores pins size rows cols) (hrow : s.row = rows - 1) (hterm : s.term = 0) :
    (walk rows s.rung s.col).row = rows - 1 ∧
      (walk rows s.rung s.col).direction = s.direction ∧
      (s.direction = 0 ↔ (rows + s.col) % 2 = 1) ∧
      (s.direction = 1 ↔ (rows + s.col) % 2 = 0) := by
  obtain ⟨_, _, hd, h | h⟩ := store_walk hs
  · have hp := walk_parity rows s.rung s.col
    rw [hd] at hp
    rw [h.2.1] at hp
    have hne := h.2.2
    refine ⟨by rw [h.2.1, hrow], hd, ?_, ?_⟩ <;> omega
  · omega

/-! ## Every position is the row of exactly one rung -/

theorem body_prevWalk (rows i : Nat) (pin : Int) (col : Nat) {w : Walk} (hr : w.row ≤ rows)
    (hd : w.direction ≤ 1) : (body rows i pin col (prevWalk rows w)).2 = w := by
  obtain ⟨r, d⟩ := w
  simp only at hr hd
  unfold prevWalk body
  split_ifs <;> simp_all <;> omega

theorem prevWalk_body (rows i : Nat) (pin : Int) (col : Nat) {w : Walk} (hr : w.row ≤ rows)
    (hd : w.direction ≤ 1) : prevWalk rows (body rows i pin col w).2 = w := by
  obtain ⟨r, d⟩ := w
  simp only at hr hd
  unfold prevWalk body
  split_ifs <;> simp_all <;> omega

theorem prevWalk_valid (rows c : Nat) {w : Walk} (hr : w.row ≤ rows) (hd : w.direction ≤ 1)
    (hp : (w.row + w.direction + (c + 1)) % 2 = 0) :
    (prevWalk rows w).row ≤ rows ∧ (prevWalk rows w).direction ≤ 1 ∧
      ((prevWalk rows w).row + (prevWalk rows w).direction + c) % 2 = 0 := by
  obtain ⟨r, d⟩ := w
  simp only at hr hd hp
  unfold prevWalk
  split_ifs <;> simp_all <;> omega

/-- Every state of the right parity is the state of exactly one of the rungs `0 .. rows`
at column `c`. -/
theorem walk_unique_state (rows c : Nat) (w : Walk) (hr : w.row ≤ rows)
    (hd : w.direction ≤ 1) (hp : (w.row + w.direction + c) % 2 = 0) :
    ∃ i, i ≤ rows ∧ walk rows i c = w ∧ ∀ j, j ≤ rows → walk rows j c = w → j = i := by
  induction c generalizing w with
  | zero =>
    obtain ⟨r, d⟩ := w
    simp only at hr hd hp
    refine ⟨r, hr, ?_, ?_⟩
    · simp only [walk, seed, Walk.mk.injEq, true_and]
      omega
    · intro j _ hj
      simp only [walk, seed, Walk.mk.injEq] at hj
      exact hj.1
  | succ c ih =>
    obtain ⟨h1, h2, h3⟩ := prevWalk_valid rows c hr hd hp
    obtain ⟨i, hi, hw, hu⟩ := ih (prevWalk rows w) h1 h2 h3
    refine ⟨i, hi, ?_, ?_⟩
    · rw [walk_succ, hw, body_prevWalk rows i 0 c hr hd]
    · intro j hj hjw
      apply hu j hj
      rw [walk_succ] at hjw
      rw [← hjw, prevWalk_body rows j 0 c (walk_row_le hj c) (walk_parity rows j c).2]

/-- With the rungs `0 .. rows`, every position `p ≤ rows` is the `row` of exactly one rung
at every column. -/
theorem rung_unique (rows c p : Nat) (hp : p ≤ rows) :
    ∃ i, i ≤ rows ∧ (walk rows i c).row = p ∧
      ∀ j, j ≤ rows → (walk rows j c).row = p → j = i := by
  obtain ⟨i, hi, hw, hu⟩ := walk_unique_state rows c ⟨p, (p + c) % 2⟩ hp
    (by simp only; omega) (by simp only; omega)
  refine ⟨i, hi, by rw [hw], ?_⟩
  intro j hj hjw
  apply hu j hj
  have hpar := walk_parity rows j c
  rw [hjw] at hpar
  cases hwj : walk rows j c with
  | mk r d =>
    rw [hwj] at hjw hpar
    simp only at hjw hpar
    simp only [Walk.mk.injEq]
    omega

/-- With `rows + 1` rungs every cell has exactly one rung storing to its positive terminal
and exactly one, different, rung storing to its negative terminal. -/
theorem cell_writers (pins : List Int) (rows cols : Nat) {r c : Nat} (hr : r < rows)
    (hc : c < cols) :
    ∃ i j, i ≠ j ∧
      (∀ k, writes (allStores pins (rows + 1) rows cols) k r c 0 ↔ k = i) ∧
      (∀ k, writes (allStores pins (rows + 1) rows cols) k r c 1 ↔ k = j) := by
  obtain ⟨i, hi, hwi, hui⟩ := rung_unique rows c r (by omega)
  obtain ⟨j, hj, hwj, huj⟩ := rung_unique rows c (r + 1) (by omega)
  refine ⟨i, j, ?_, ?_, ?_⟩
  · rintro rfl
    omega
  · intro k
    rw [writes_pos_iff]
    constructor
    · rintro ⟨hk, _, hwk, _⟩
      exact hui k (by omega) hwk
    · rintro rfl
      exact ⟨by omega, hc, hwi, by omega⟩
  · intro k
    rw [writes_neg_iff]
    constructor
    · rintro ⟨hk, _, hwk⟩
      exact huj k (by omega) hwk
    · rintro rfl
      exact ⟨by omega, hc, hwj⟩

/-- Claim C1. In the program's configuration, for every cell `(r, c)` of the final grid
there is exactly one rung whose walk variable `row` is `r` when it processes column `c`,
and `matrix_pins[r][c][0]` is its pin; there is exactly one rung whose `row` is `r + 1` at
column `c`, and `matrix_pins[r][c][1]` is its pin. -/
theorem C1_cell_pins_are_rung_pins (r c : Nat) (hr : r < NUM_ROWS) (hc : c < NUM_COLS) :
    (∃ i, i < LED_PINS_SIZE ∧ (walk NUM_ROWS i c).row = r ∧
        (∀ j, j < LED_PINS_SIZE → (walk NUM_ROWS j c).row = r → j = i) ∧
        matrix_pins r c 0 = led_pins[i]?) ∧
    (∃ i, i < LED_PINS_SIZE ∧ (walk NUM_ROWS i c).row = r + 1 ∧
        (∀ j, j < LED_PINS_SIZE → (walk NUM_ROWS j c).row = r + 1 → j = i) ∧
        matrix_pins r c 1 = led_pins[i]?) := by
  have hr2 : r < 28 := hr
  obtain ⟨hi, hwi, hui⟩ := rungAt_spec (p := r) hc (by unfold LED_PINS_SIZE; omega)
  obtain ⟨hj, hwj, huj⟩ := rungAt_spec (p := r + 1) hc (by unfold LED_PINS_SIZE; omega)
  obtain ⟨e0, e1⟩ := matrix_pins_eq hr hc
  exact ⟨⟨rungAt r c, hi, hwi, hui, e0⟩, ⟨rungAt (r + 1) c, hj, hwj, huj, e1⟩⟩

/-- Witness of C1 at the cell `(13, 7)`. -/
theorem C1_witness :
    (∃ i, i < LED_PINS_SIZE ∧ (walk NUM_ROWS i 7).row = 13 ∧
        (∀ j, j < LED_PINS_SIZE → (walk NUM_ROWS j 7).row = 13 → j = i) ∧
        matrix_pins 13 7 0 = led_pins[i]?) ∧
    (∃ i, i < LED_PINS_SIZE ∧ (walk NUM_ROWS i 7).row = 13 + 1 ∧
        (∀ j, j < LED_PINS_SIZE → (walk NUM_ROWS j 7).row = 13 + 1 → j = i) ∧
        matrix_pins 13 7 1 = led_pins[i]?) :=
  C1_cell_pins_are_rung_pins 13 7 (by decide) (by decide)

/-- Claim C2, as stated, fails. In column 2 the positive pin of row 0 is 3 (the pin of
rung 2), not 5. -/
theorem C2_counterexample :
    2 < NUM_COLS ∧ matrix_pins 0 2 0 = some 3 ∧ matrix_pins 0 2 0 ≠ some 5 := by
  have h := (matrix_pins_eq (r := 0) (c := 2) (by decide) (by decide)).1
  have e : led_pins[rungAt 0 2]? = some 3 := by decide
  rw [e] at h
  refine ⟨by decide, h, ?_⟩
  rw [h]
  decide

/-- Claim C2 (amended). With the program's pin list, 28 rows and 20 columns, the positive
pin of row 0 at column `c` is the pin of rung `2 * (c / 2)`, the rung whose `row` is 0 at
that column; it is 5 exactly in columns 0 and 1. -/
theorem C2_row0_positive (c : Nat) (hc : c < NUM_COLS) :
    (walk NUM_ROWS (2 * (c / 2)) c).row = 0 ∧
      matrix_pins 0 c 0 = led_pins[2 * (c / 2)]? ∧
      (matrix_pins 0 c 0 = some 5 ↔ c < 2) := by
  obtain ⟨h1, h2⟩ := row0_rung c hc
  have h := (matrix_pins_eq (r := 0) (c := c) (by decide) hc).1
  obtain ⟨_, hw, _⟩ := rungAt_spec (p := 0) hc (by decide)
  rw [h1] at h hw
  exact ⟨hw, h, by rw [h]; exact h2⟩

/-- Witness of C2 (amended) at column 1. -/
theorem C2_witness :
    (walk NUM_ROWS (2 * (1 / 2)) 1).row = 0 ∧
      matrix_pins 0 1 0 = led_pins[2 * (1 / 2)]? ∧
      (matrix_pins 0 1 0 = some 5 ↔ 1 < 2) :=
  C2_row0_positive 1 (by decide)

/-- Claim C3, as stated, fails. The columns of the grid are not all identical: in row 0,
column 0 holds the positive pin 5 and column 2 the positive pin 3. -/
theorem C3_counterexample :
    ¬ ∀ r c1 c2, r < NUM_ROWS → c1 < NUM_COLS → c2 < NUM_COLS →
        (matrix_pins r c1 0, matrix_pins r c1 1) = (matrix_pins r c2 0, matrix_pins r c2 1) := by
  intro h
  have h02 := congrArg Prod.fst (h 0 0 2 (by decide) (by decide) (by decide))
  simp only at h02
  rw [(matrix_pins_eq (r := 0) (c := 0) (by decide) (by decide)).1,
    (matrix_pins_eq (r := 0) (c := 2) (by decide) (by decide)).1] at h02
  revert h02
  decide

/-- Claim C3 (amended). For the program's 29 pins and 28 rows the content of a column does
not depend on the number of columns: the passes for `cols1` and `cols2` columns both
succeed and their grids agree on every slot of every column `c` below both. -/
theorem C3_column_independent_of_cols (cols1 cols2 r c t : Nat) (h1 : c < cols1)
    (h2 : c < cols2) :
    ∃ g1 g2, mapPass led_pins LED_PINS_SIZE NUM_ROWS cols1 = .ok g1 ∧
      mapPass led_pins LED_PINS_SIZE NUM_ROWS cols2 = .ok g2 ∧ slot g1 r c t = slot g2 r c t := by
  obtain ⟨g1, hg1⟩ :=
    @mapPass_ok_of_length_le led_pins LED_PINS_SIZE NUM_ROWS cols1 (by decide) (by decide)
  obtain ⟨g2, hg2⟩ :=
    @mapPass_ok_of_length_le led_pins LED_PINS_SIZE NUM_ROWS cols2 (by decide) (by decide)
  exact ⟨g1, g2, hg1, hg2, by rw [slot_mapPass hg1 r h1 t, slot_mapPass hg2 r h2 t]⟩

/-- Witness of C3 (amended) for the grids of 20 columns and of 1 column at the slot `(0, 0, 0)`. -/
theorem C3_witness :
    ∃ g1 g2, mapPass led_pins LED_PINS_SIZE NUM_ROWS 20 = .ok g1 ∧
      mapPass led_pins LED_PINS_SIZE NUM_ROWS 1 = .ok g2 ∧ slot g1 0 0 0 = slot g2 0 0 0 :=
  C3_column_independent_of_cols 20 1 0 0 0 (by decide) (by decide)

/-- Claim C4, as stated, fails. With a pin list of `rows = 28` entries and the outer loop
running these 28 rungs, no rung has `row = 27` at column 1 (in the program it is rung 28),
so the negative terminal of the interior cell `(26, 1)` is never stored to: the cell
receives a store from one rung only. -/
theorem C4_counterexample :
    (led_pins.take 28).length = NUM_ROWS ∧ 0 < 26 ∧ 26 < NUM_ROWS - 1 ∧ 1 < NUM_COLS ∧
      ∃ ss, mapStores (led_pins.take 28) 28 NUM_ROWS NUM_COLS = .ok ss ∧
        ∀ k, ¬ writes ss k 26 1 1 := by
  refine ⟨rfl, by decide, by decide, by decide, _, mapStores_eq _ _ _ _ (by decide), ?_⟩
  intro k hk
  obtain ⟨hk28, _, hw⟩ := writes_neg_iff.mp hk
  obtain ⟨_, _, hu⟩ := rungAt_spec (c := 1) (p := 27) (by decide) (by decide)
  have h28 : k = rungAt 27 1 := hu k (by unfold LED_PINS_SIZE; omega) hw
  have e : rungAt 27 1 = 28 := by decide
  omega

/-- Claim C4 (amended). When the outer loop runs `rows + 1` rungs (`LED_PINS_SIZE` is
`rows + 1`, as in the program: 29 rungs for 28 rows) and the pin list holds an entry for
each of them, every interior cell `(r, c)`, `0 < r < rows - 1`, of any column `c < cols`
is stored to by exactly two distinct rungs over the whole pass: exactly one rung `i`
stores to its positive terminal and exactly one rung `j ≠ i` stores to its negative
terminal. -/
theorem C4_interior_cell_two_rungs (pins : List Int) (size rows cols r c : Nat)
    (hsize : size = rows + 1) (hlen : size ≤ pins.length) (_h0 : 0 < r) (h1 : r < rows - 1)
    (hc : c < cols) :
    ∃ ss, mapStores pins size rows cols = .ok ss ∧
      ∃ i j, i ≠ j ∧ (∀ k, writes ss k r c 0 ↔ k = i) ∧ (∀ k, writes ss k r c 1 ↔ k = j) := by
  subst hsize
  exact ⟨_, mapStores_eq _ _ _ _ hlen, cell_writers pins rows cols (by omega) hc⟩

/-- Witness of C4 (amended) at the program's configuration and the interior cell `(1, 0)`. -/
theorem C4_witness :
    ∃ ss, mapStores led_pins LED_PINS_SIZE NUM_ROWS NUM_COLS = .ok ss ∧
      ∃ i j, i ≠ j ∧ (∀ k, writes ss k 1 0 0 ↔ k = i) ∧ (∀ k, writes ss k 1 0 1 ↔ k = j) :=
  C4_interior_cell_two_rungs led_pins LED_PINS_SIZE NUM_ROWS NUM_COLS 1 0 rfl (by decide)
    (by decide) (by decide) (by decide)

/-- Claim C5, as stated, fails. Both terminals of the first-row cell `(0, 0)` are stored to
(the positive one by rung 0, the negative one by rung 1), and both terminals of the
last-row cell `(27, 0)` (the positive one by rung 27, the negative one by rung 28). -/
theorem C5_counterexample :
    ∃ ss, mapStores led_pins LED_PINS_SIZE NUM_ROWS NUM_COLS = .ok ss ∧
      writes ss 0 0 0 0 ∧ writes ss 1 0 0 1 ∧
      writes ss 27 (NUM_ROWS - 1) 0 0 ∧ writes ss 28 (NUM_ROWS - 1) 0 1 :=
  ⟨_, mapStores_eq _ _ _ _ (by decide),
    writes_pos_iff.mpr ⟨by decide, by decide, by decide, by decide⟩,
    writes_neg_iff.mpr ⟨by decide, by decide, by decide⟩,
    writes_pos_iff.mpr ⟨by decide, by decide, by decide, by decide⟩,
    writes_neg_iff.mpr ⟨by decide, by decide, by decide⟩⟩

/-- Claim C5 (amended). In the program's configuration every cell of the first row and of
the last row has both terminals filled: exactly one rung stores to its positive terminal
and exactly one, different, rung stores to its negative terminal (the negative terminal
of the last row comes from the rung whose `row` is `NUM_ROWS`). -/
theorem C5_edge_cell_two_rungs (r c : Nat) (hr : r = 0 ∨ r = NUM_ROWS - 1)
    (hc : c < NUM_COLS) :
    ∃ ss, mapStores led_pins LED_PINS_SIZE NUM_ROWS NUM_COLS = .ok ss ∧
      ∃ i j, i ≠ j ∧ (∀ k, writes ss k r c 0 ↔ k = i) ∧ (∀ k, writes ss k r c 1 ↔ k = j) :=
  ⟨_, mapStores_eq _ _ _ _ (by decide),
    cell_writers_config (by rcases hr with rfl | rfl <;> decide) hc⟩

/-- Witness of C5 (amended) at the last-row cell `(27, 19)`. -/
theorem C5_witness :
    ∃ ss, mapStores led_pins LED_PINS_SIZE NUM_ROWS NUM_COLS = .ok ss ∧
      ∃ i j, i ≠ j ∧ (∀ k, writes ss k 27 19 0 ↔ k = i) ∧ (∀ k, writes ss k 27 19 1 ↔ k = j) :=
  C5_edge_cell_two_rungs 27 19 (Or.inr (by decide)) (by decide)

/-- Claim C6, as stated, fails. With the program's `LED_PINS_SIZE = 29`, 28 rows and 20
columns, a pin list of 28 entries (length at least `rows`) is read at index 28, outside
the list.  With the program's 29 pins and `rows = 27` (length at least `rows` again) rung
28 is seeded at row 28 and its store `matrix_pins[28][0][0]` is outside the grid. -/
theorem C6_counterexample :
    (NUM_ROWS ≤ (led_pins.take 28).length ∧
      mapPass (led_pins.take 28) LED_PINS_SIZE NUM_ROWS NUM_COLS =
        .error .IndexOutOfRange) ∧
    (27 ≤ led_pins.length ∧
      mapPass led_pins LED_PINS_SIZE 27 NUM_COLS = .error .IndexOutOfRange) := by
  refine ⟨⟨by decide, mapPass_error _ _ _ _ (by decide)⟩, by decide, ?_⟩
  rw [mapPass_eq _ _ _ _ (by decide)]
  apply runStores_error
  refine ⟨⟨28, 0, 28, 0, 0, 11⟩, mem_allStores.mpr ⟨28, by decide, 0, by decide, by decide⟩, ?_⟩
  decide

/-- Claim C6 (amended). The mapper is total for every pin list whose length is at least
`rows` and at least `LED_PINS_SIZE`, the bound of the outer loop, when `LED_PINS_SIZE` is
at most `rows + 1` (in the program: 29 = 28 + 1): every read `pins[i]` of the pass is
inside the list, every store has its row index in `0 .. rows-1`, its column index in
`0 .. cols-1` and its terminal index in `0 .. 1`, and the pass returns a grid. -/
theorem C6_total_when_bound_fits (pins : List Int) (size rows cols : Nat)
    (_hrows : rows ≤ pins.length) (hsize : size ≤ pins.length) (hfit : size ≤ rows + 1) :
    ∃ ss g, mapStores pins size rows cols = .ok ss ∧
      (∀ i, i < size → i < pins.length ∧ readPin pins i = .ok (pins.getD i 0)) ∧
      (∀ s, s ∈ ss → s.rung < size ∧ s.row < rows ∧ s.col < cols ∧ s.term < 2) ∧
      mapPass pins size rows cols = .ok g := by
  obtain ⟨g, hg⟩ := @mapPass_ok_of_length_le pins size rows cols hsize hfit
  exact ⟨_, g, mapStores_eq _ _ _ _ hsize,
    fun i hi => ⟨by omega, readPin_of_lt (by omega)⟩,
    fun s hs => allStores_in_bounds hfit hs, hg⟩

/-- Witness of C6 (amended) at the program's configuration: 29 pins, `LED_PINS_SIZE = 29`,
28 rows, 20 columns. -/
theorem C6_witness :
    ∃ ss g, mapStores led_pins LED_PINS_SIZE NUM_ROWS NUM_COLS = .ok ss ∧
      (∀ i, i < LED_PINS_SIZE →
        i < led_pins.length ∧ readPin led_pins i = .ok (led_pins.getD i 0)) ∧
      (∀ s, s ∈ ss →
        s.rung < LED_PINS_SIZE ∧ s.row < NUM_ROWS ∧ s.col < NUM_COLS ∧ s.term < 2) ∧
      mapPass led_pins LED_PINS_SIZE NUM_ROWS NUM_COLS = .ok g :=
  C6_total_when_bound_fits led_pins LED_PINS_SIZE NUM_ROWS NUM_COLS (by decide) (by decide)
    (by decide)

/-- Claim C8, as stated, fails. Rung 1 starts descending at row 1 and, at column 0, performs
the store `matrix_pins[0][0][1] = 4` while its direction is 1 (line 49). -/
theorem C8_counterexample :
    mapStores led_pins LED_PINS_SIZE NUM_ROWS NUM_COLS = .ok (allStores led_pins LED_PINS_SIZE NUM_ROWS NUM_COLS) ∧
      (⟨1, 1, 0, 0, 1, 4⟩ : Store) ∈ allStores led_pins LED_PINS_SIZE NUM_ROWS NUM_COLS ∧
      walk NUM_ROWS 1 0 = ⟨1, 1⟩ :=
  ⟨mapStores_eq _ _ _ _ (by decide), store_rung1_col0, rfl⟩

/-- Claim C8 (amended). Every store to the negative terminal of a row-0 cell is performed by
a rung whose `row` is 1 at that moment, never by a rung whose `row` is 0; the rung is
ascending (arriving at row 0 from below) exactly when the column is odd and descending
(moving away from row 0) exactly when the column is even. -/
theorem C8_row0_negative_writer (pins : List Int) (size rows cols : Nat) (ss : List Store)
    (h : mapStores pins size rows cols = .ok ss) (s : Store) (hs : s ∈ ss) (hrow : s.row = 0)
    (hterm : s.term = 1) :
    (walk rows s.rung s.col).row = 1 ∧ (walk rows s.rung s.col).direction = s.direction ∧
      (s.direction = 0 ↔ s.col % 2 = 1) ∧ (s.direction = 1 ↔ s.col % 2 = 0) := by
  rw [(mapStores_ok_iff.mp h).2] at hs
  exact neg_row0_direction hs hrow hterm

/-- Witness of C8 (amended) at the store of rung 1 at column 0 of the program's configuration. -/
theorem C8_witness :
    (walk NUM_ROWS 1 0).row = 1 ∧ (walk NUM_ROWS 1 0).direction = 1 ∧
      ((1 : Nat) = 0 ↔ 0 % 2 = 1) ∧ ((1 : Nat) = 1 ↔ 0 % 2 = 0) :=
  C8_row0_negative_writer led_pins LED_PINS_SIZE NUM_ROWS NUM_COLS _ (mapStores_eq _ _ _ _ (by decide))
    ⟨1, 1, 0, 0, 1, 4⟩ store_rung1_col0 rfl rfl

/-- Claim C9, as stated, fails. Rung 28 starts ascending at row 28 and, at column 1,
performs the store `matrix_pins[27][1][0] = 11` while its direction is 0 (line 33). -/
theorem C9_counterexample :
    mapStores led_pins LED_PINS_SIZE NUM_ROWS NUM_COLS = .ok (allStores led_pins LED_PINS_SIZE NUM_ROWS NUM_COLS) ∧
      (⟨28, 0, NUM_ROWS - 1, 1, 0, 11⟩ : Store) ∈ allStores led_pins LED_PINS_SIZE NUM_ROWS NUM_COLS ∧
      walk NUM_ROWS 28 1 = ⟨NUM_ROWS - 1, 0⟩ :=
  ⟨mapStores_eq _ _ _ _ (by decide), store_rung28_col1, rfl⟩

/-- Claim C9 (amended). Every store to the positive terminal of a last-row cell is performed
by a rung whose `row` is `rows - 1` at that moment; the rung is ascending exactly when
`rows + col` is odd and descending exactly when `rows + col` is even (for the program's 28
rows: ascending in odd columns, descending in even columns). -/
theorem C9_last_row_positive_writer (pins : List Int) (size rows cols : Nat) (ss : List Store)
    (h : mapStores pins size rows cols = .ok ss) (s : Store) (hs : s ∈ ss)
    (hrow : s.row = rows - 1) (hterm : s.term = 0) :
    (walk rows s.rung s.col).row = rows - 1 ∧
      (walk rows s.rung s.col).direction = s.direction ∧
      (s.direction = 0 ↔ (rows + s.col) % 2 = 1) ∧
      (s.direction = 1 ↔ (rows + s.col) % 2 = 0) := by
  rw [(mapStores_ok_iff.mp h).2] at hs
  exact pos_last_row_direction hs hrow hterm

/-- Witness of C9 (amended) at the store of rung 28 at column 1 of the program's configuration. -/
theorem C9_witness :
    (walk NUM_ROWS 28 1).row = NUM_ROWS - 1 ∧ (walk NUM_ROWS 28 1).direction = 0 ∧
      ((0 : Nat) = 0 ↔ (NUM_ROWS + 1) % 2 = 1) ∧ ((0 : Nat) = 1 ↔ (NUM_ROWS + 1) % 2 = 0) :=
  C9_last_row_positive_writer led_pins LED_PINS_SIZE NUM_ROWS NUM_COLS _ (mapStores_eq _ _ _ _ (by decide))
    ⟨28, 0, 27, 1, 0, 11⟩ store_rung28_col1 rfl rfl

/-- Claim C10. In the final grid of the program's configuration both terminals of every
cell hold a pin, and the ordered pair (positive pin, negative pin) is unique to each cell:
two different cells never carry the same pair. -/
theorem C10_pin_pair_unique (r1 c1 r2 c2 : Nat) (hr1 : r1 < NUM_ROWS) (hc1 : c1 < NUM_COLS)
    (hr2 : r2 < NUM_ROWS) (hc2 : c2 < NUM_COLS) (hne : (r1, c1) ≠ (r2, c2)) :
    (matrix_pins r1 c1 0).isSome ∧ (matrix_pins r1 c1 1).isSome ∧
      (matrix_pins r1 c1 0, matrix_pins r1 c1 1) ≠
        (matrix_pins r2 c2 0, matrix_pins r2 c2 1) := by
  have hr1b : r1 < 28 := hr1
  have hr2b : r2 < 28 := hr2
  have hp1 : r1 < LED_PINS_SIZE := by unfold LED_PINS_SIZE; omega
  have hq1 : r1 + 1 < LED_PINS_SIZE := by unfold LED_PINS_SIZE; omega
  have hp2 : r2 < LED_PINS_SIZE := by unfold LED_PINS_SIZE; omega
  have hq2 : r2 + 1 < LED_PINS_SIZE := by unfold LED_PINS_SIZE; omega
  obtain ⟨a0, a1⟩ := matrix_pins_eq hr1 hc1
  obtain ⟨b0, b1⟩ := matrix_pins_eq hr2 hc2
  obtain ⟨i1, w1, _⟩ := rungAt_walkRow c1 hc1 r1 hp1
  obtain ⟨j1, _, _⟩ := rungAt_walkRow c1 hc1 (r1 + 1) hq1
  obtain ⟨i2, w2, _⟩ := rungAt_walkRow c2 hc2 r2 hp2
  obtain ⟨j2, v2, _⟩ := rungAt_walkRow c2 hc2 (r2 + 1) hq2
  refine ⟨?_, ?_, ?_⟩
  · rw [a0, getElem?_led_pins i1]; rfl
  · rw [a1, getElem?_led_pins j1]; rfl
  · intro heq
    rw [a0, a1, b0, b1] at heq
    have e0 : rungAt r1 c1 = rungAt r2 c2 :=
      led_pins_injective _ i1 _ i2 (congrArg Prod.fst heq)
    have e1 : rungAt (r1 + 1) c1 = rungAt (r2 + 1) c2 :=
      led_pins_injective _ j1 _ j2 (congrArg Prod.snd heq)
    have hc : c2 = c1 := by
      apply crossing_once r1 hr1 c1 hc1 c2 hc2
      rw [e0, e1, w2, v2]
    subst hc
    have hr : r1 = r2 := by rw [← w1, e0, w2]
    subst hr
    exact hne rfl

/-- Witness of C10 at the cells `(0, 1)` and `(0, 2)`, whose pairs are `(5, 3)` and `(3, 5)`. -/
theorem C10_witness :
    (matrix_pins 0 1 0).isSome ∧ (matrix_pins 0 1 1).isSome ∧
      (matrix_pins 0 1 0, matrix_pins 0 1 1) ≠ (matrix_pins 0 2 0, matrix_pins 0 2 1) :=
  C10_pin_pair_unique 0 1 0 2 (by decide) (by decide) (by decide) (by decide) (by decide)

/-! ## Stores to one slot -/

theorem filter_rungLoop_of_col (p : Store → Bool) (c : Nat)
    (hp : ∀ s, p s = true → s.col = c) (rows i : Nat) (pin : Int) (n : Nat) :
    (rungLoop rows i pin n).1.filter p =
      if c < n then (body rows i pin c (walk rows i c)).1.filter p else [] := by
  induction n with
  | zero => simp [rungLoop]
  | succ n ih =>
    rw [rungLoop_succ, List.filter_append, ih, rungLoop_snd]
    by_cases h1 : c < n
    · have h3 : c < n + 1 := by omega
      have h4 : (body rows i pin n (walk rows i n)).1.filter p = [] := by
        rw [List.filter_eq_nil_iff]
        intro s hs hps
        have hcol := hp s hps
        rcases mem_body.mp hs with ⟨rfl, _⟩ | ⟨rfl, _⟩ <;> simp at hcol <;> omega
      simp [h1, h3, h4]
    · by_cases h2 : n = c
      · subst h2; simp
      · have h3 : ¬ c < n + 1 := by omega
        have h4 : (body rows i pin n (walk rows i n)).1.filter p = [] := by
          rw [List.filter_eq_nil_iff]
          intro s hs hps
          have hcol := hp s hps
          rcases mem_body.mp hs with ⟨rfl, _⟩ | ⟨rfl, _⟩ <;> simp at hcol <;> omega
        simp [h1, h3, h4]

theorem storesTo_allStores (pins : List Int) (size rows : Nat) {cols c : Nat} (hc : c < cols)
    (r t : Nat) :
    storesTo (allStores pins size rows cols) r c t =
      (List.range size).flatMap
        (fun i => storesTo (body rows i (pins.getD i 0) c (walk rows i c)).1 r c t) := by
  unfold storesTo allStores
  rw [List.filter_flatMap]
  have hp : ∀ s : Store, decide (s.row = r ∧ s.col = c ∧ s.term = t) = true → s.col = c := by
    intro s hs
    simp only [decide_eq_true_eq] at hs
    exact hs.2.1
  simp only [filter_rungLoop_of_col _ c hp, hc, if_true]

theorem storesTo_body_pos (rows i : Nat) (pin : Int) (c : Nat) (w : Walk) (r : Nat) :
    storesTo (body rows i pin c w).1 r c 0 =
      if w.row = r ∧ r ≠ rows then [⟨i, w.direction, r, c, 0, pin⟩] else [] := by
  unfold storesTo body
  split_ifs <;> simp_all [List.filter_cons] <;> omega

theorem storesTo_body_neg (rows i : Nat) (pin : Int) (c : Nat) (w : Walk) (r : Nat) :
    storesTo (body rows i pin c w).1 r c 1 =
      if w.row = r + 1 then [⟨i, w.direction, r, c, 1, pin⟩] else [] := by
  unfold storesTo body
  split_ifs <;> simp_all [List.filter_cons] <;> omega

theorem flatMap_range_unique {β : Type} (F : Nat → List β) (x : β) (i0 n : Nat)
    (h0 : F i0 = [x]) (h : ∀ i, i < n → i ≠ i0 → F i = []) :
    (List.range n).flatMap F = if i0 < n then [x] else [] := by
  induction n with
  | zero => simp
  | succ n ih =>
    rw [List.range_succ, List.flatMap_append, ih (fun i hi hne => h i (by omega) hne)]
    by_cases h1 : i0 < n
    · have h2 : i0 < n + 1 := by omega
      have h3 : F n = [] := h n (by omega) (by omega)
      simp [h1, h2, h3]
    · by_cases h2 : i0 = n
      · subst h2; simp [h0]
      · have h3 : ¬ i0 < n + 1 := by omega
        have h4 : F n = [] := h n (by omega) (fun e => h2 e.symm)
        simp [h1, h3, h4]

theorem walk_eq_mk {rows i c r d : Nat} (h1 : (walk rows i c).row = r)
    (h2 : (walk rows i c).direction = d) : walk rows i c = ⟨r, d⟩ := by
  cases hw : walk rows i c with
  | mk r0 d0 =>
    rw [hw] at h1 h2
    simp only at h1 h2
    rw [h1, h2]

/-! ## Lemmas on the serializer -/

set_option maxRecDepth 100000 in
theorem fmt2d_small : ∀ n : Nat, n < 100 → fmt2d (n : Int) = field2 n := by
  decide!

theorem length_field2 (n : Nat) : (field2 n).length = 2 := by
  unfold field2
  split_ifs <;> rfl

theorem length_cell8 (p n : Nat) : (cell8 p n).length = 8 := by
  simp [cell8, length_field2]

theorem length_flatMap_const {α β : Type} (l : List α) (f : α → List β) (k : Nat)
    (h : ∀ a, a ∈ l → (f a).length = k) : (l.flatMap f).length = l.length * k := by
  induction l with
  | nil => simp
  | cons a l ih =>
    rw [List.flatMap_cons, List.length_append, h a (List.mem_cons_self _ _),
      ih (fun b hb => h b (List.mem_cons_of_mem _ hb)), List.length_cons, Nat.succ_mul,
      Nat.add_comm]

theorem length_lineText (cols : Nat) (P N : Nat → Nat) :
    (lineText cols P N).length = 8 * cols + 1 := by
  unfold lineText
  rw [List.length_append, length_flatMap_const _ _ 8 (fun c _ => length_cell8 _ _),
    List.length_range, Nat.mul_comm]
  rfl

theorem length_gridText (rows cols : Nat) (P N : Nat → Nat → Nat) :
    (gridText rows cols P N).length = rows * (8 * cols + 1) := by
  unfold gridText
  rw [length_flatMap_const _ _ (8 * cols + 1) (fun r _ => length_lineText _ _ _),
    List.length_range]

theorem printRow_upto (cols : Nat) (g : Grid) (row : Nat) (P N : Nat → Nat)
    (h : ∀ c, c < cols → P c ≤ 99 ∧ N c ≤ 99 ∧
      slot g row c 0 = some (P c : Int) ∧ slot g row c 1 = some (N c : Int))
    (out : List Char) (n : Nat) (hn : n ≤ cols) :
    (List.range n).foldlM
      (fun acc col => do
        let a ← readSlot g row col 0
        let b ← readSlot g row col 1
        pure (acc ++ printCell a b))
      out =
    (.ok (out ++ (List.range n).flatMap (fun c => cell8 (P c) (N c))) :
      Except MapError (List Char)) := by
  induction n with
  | zero => simp [pure, Except.pure]
  | succ n ih =>
    obtain ⟨hp, hq, h0, h1⟩ := h n (by omega)
    rw [List.range_succ, List.foldlM_append, ih (by omega)]
    simp [readSlot, h0, h1, printCell, cell8, fmt2d_small _ (Nat.lt_succ_of_le hp),
      fmt2d_small _ (Nat.lt_succ_of_le hq), bind, Except.bind, pure, Except.pure]

theorem printRow_eq (cols : Nat) (g : Grid) (row : Nat) (P N : Nat → Nat)
    (h : ∀ c, c < cols → P c ≤ 99 ∧ N c ≤ 99 ∧
      slot g row c 0 = some (P c : Int) ∧ slot g row c 1 = some (N c : Int))
    (out : List Char) :
    printRow cols g row out = .ok (out ++ lineText cols P N) := by
  unfold printRow
  rw [printRow_upto cols g row P N h out cols le_rfl]
  simp [lineText, bind, Except.bind, pure, Except.pure]

theorem serialize_upto (rows cols : Nat) (g : Grid) (P N : Nat → Nat → Nat)
    (h : ∀ r c, r < rows → c < cols → P r c ≤ 99 ∧ N r c ≤ 99 ∧
      slot g r c 0 = some (P r c : Int) ∧ slot g r c 1 = some (N r c : Int))
    (n : Nat) (hn : n ≤ rows) :
    (List.range n).foldlM (fun acc row => printRow cols g row acc) [] =
      (.ok (gridText n cols P N) : Except MapError (List Char)) := by
  induction n with
  | zero => rfl
  | succ n ih =>
    rw [List.range_succ, List.foldlM_append, ih (by omega)]
    simp [printRow_eq cols g n (P n) (N n) (fun c hc => h n c (by omega) hc), gridText,
      List.range_succ, bind, Except.bind, pure, Except.pure]

set_option maxRecDepth 100000 in
theorem count_newline_field2 : ∀ n, n < 100 → (field2 n).count '\n' = 0 := by
  decide!

theorem count_newline_cell8 {p n : Nat} (hp : p ≤ 99) (hn : n ≤ 99) :
    (cell8 p n).count '\n' = 0 := by
  unfold cell8
  rw [List.count_append, List.count_append, List.count_append, List.count_append,
    count_newline_field2 p (by omega), count_newline_field2 n (by omega)]
  decide

theorem count_flatMap_const {α β : Type} [BEq β] (l : List α) (f : α → List β) (x : β)
    (k : Nat) (h : ∀ a, a ∈ l → (f a).count x = k) :
    (l.flatMap f).count x = l.length * k := by
  induction l with
  | nil => simp
  | cons a l ih =>
    rw [List.flatMap_cons, List.count_append, h a (List.mem_cons_self _ _),
      ih (fun b hb => h b (List.mem_cons_of_mem _ hb)), List.length_cons, Nat.succ_mul,
      Nat.add_comm]

theorem count_newline_lineText (cols : Nat) (P N : Nat → Nat)
    (h : ∀ c, c < cols → P c ≤ 99 ∧ N c ≤ 99) :
    (lineText cols P N).count '\n' = 1 := by
  unfold lineText
  rw [List.count_append, count_flatMap_const _ _ _ 0
    (fun c hc => count_newline_cell8 (h c (List.mem_range.mp hc)).1
      (h c (List.mem_range.mp hc)).2)]
  simp

theorem count_newline_gridText (rows cols : Nat) (P N : Nat → Nat → Nat)
    (h : ∀ r c, r < rows → c < cols → P r c ≤ 99 ∧ N r c ≤ 99) :
    (gridText rows cols P N).count '\n' = rows := by
  unfold gridText
  rw [count_flatMap_const _ _ _ 1
    (fun r hr => count_newline_lineText _ _ _ (fun c hc => h r c (List.mem_range.mp hr) hc)),
    List.length_range, Nat.mul_one]

set_option maxRecDepth 100000 in
theorem led_pins_range :
    ∀ i, i < LED_PINS_SIZE → led_pins.getD i 0 = ((led_pins.getD i 0).toNat : Int) ∧
      (led_pins.getD i 0).toNat ≤ 99 := by
  decide!

/-- The text written for the grid of the program's configuration. -/
theorem serialize_matrix_pins :
    ∃ g, mapPass led_pins LED_PINS_SIZE NUM_ROWS NUM_COLS = .ok g ∧
      serialize NUM_ROWS NUM_COLS g =
        .ok (gridText NUM_ROWS NUM_COLS (fun r c => (led_pins.getD (rungAt r c) 0).toNat)
          (fun r c => (led_pins.getD (rungAt (r + 1) c) 0).toNat)) := by
  obtain ⟨g, hg⟩ := pass_config_ok
  refine ⟨g, hg, serialize_upto _ _ g _ _ ?_ _ le_rfl⟩
  intro r c hr hc
  have hr2 : r < 28 := hr
  obtain ⟨e0, e1⟩ := matrix_pins_eq hr hc
  obtain ⟨i1, _, _⟩ := rungAt_walkRow c hc r (by unfold LED_PINS_SIZE; omega)
  obtain ⟨j1, _, _⟩ := rungAt_walkRow c hc (r + 1) (by unfold LED_PINS_SIZE; omega)
  unfold matrix_pins at e0 e1
  rw [hg] at e0 e1
  simp only at e0 e1
  obtain ⟨a1, a2⟩ := led_pins_range _ i1
  obtain ⟨b1, b2⟩ := led_pins_range _ j1
  refine ⟨a2, b2, ?_, ?_⟩
  · rw [e0, getElem?_led_pins i1, ← a1]
  · rw [e1, getElem?_led_pins j1, ← b1]

/-! ## The claims, continued -/

/-- Claim C11. In the final grid of the program's configuration no cell has the same pin
on both terminals: `matrix_pins[r][c][0]` and `matrix_pins[r][c][1]` both hold a pin and
the two pins differ. -/
theorem C11_terminals_differ (r c : Nat) (hr : r < NUM_ROWS) (hc : c < NUM_COLS) :
    (∃ a b : Int, matrix_pins r c 0 = some a ∧ matrix_pins r c 1 = some b ∧ a ≠ b) ∧
      matrix_pins r c 0 ≠ matrix_pins r c 1 := by
  have hr2 : r < 28 := hr
  obtain ⟨e0, e1⟩ := matrix_pins_eq hr hc
  obtain ⟨i1, w1, _⟩ := rungAt_walkRow c hc r (by unfold LED_PINS_SIZE; omega)
  obtain ⟨j1, v1, _⟩ := rungAt_walkRow c hc (r + 1) (by unfold LED_PINS_SIZE; omega)
  have hne : matrix_pins r c 0 ≠ matrix_pins r c 1 := by
    rw [e0, e1]
    intro h
    have e := led_pins_injective _ i1 _ j1 h
    rw [e, v1] at w1
    omega
  refine ⟨⟨led_pins.getD (rungAt r c) 0, led_pins.getD (rungAt (r + 1) c) 0, ?_, ?_, ?_⟩, hne⟩
  · rw [e0, getElem?_led_pins i1]
  · rw [e1, getElem?_led_pins j1]
  · intro h
    apply hne
    rw [e0, e1, getElem?_led_pins i1, getElem?_led_pins j1, h]

/-- Witness of C11 at the cell `(27, 19)`. -/
theorem C11_witness :
    (∃ a b : Int, matrix_pins 27 19 0 = some a ∧ matrix_pins 27 19 1 = some b ∧ a ≠ b) ∧
      matrix_pins 27 19 0 ≠ matrix_pins 27 19 1 :=
  C11_terminals_differ 27 19 (by decide) (by decide)

/-- Claim C12. The final grid of the program's configuration has the closed form
`matrix_pins[r][c][0] = led_pins[rungAt r c]` and
`matrix_pins[r][c][1] = led_pins[rungAt (r + 1) c]`, the index being inside `led_pins`
in both cases. -/
theorem C12_grid_closed_form (r c : Nat) (hr : r < NUM_ROWS) (hc : c < NUM_COLS) :
    rungAt r c < led_pins.length ∧ rungAt (r + 1) c < led_pins.length ∧
      matrix_pins r c 0 = some (led_pins.getD (rungAt r c) 0) ∧
      matrix_pins r c 1 = some (led_pins.getD (rungAt (r + 1) c) 0) := by
  have hr2 : r < 28 := hr
  obtain ⟨e0, e1⟩ := matrix_pins_eq hr hc
  obtain ⟨i1, _, _⟩ := rungAt_walkRow c hc r (by unfold LED_PINS_SIZE; omega)
  obtain ⟨j1, _, _⟩ := rungAt_walkRow c hc (r + 1) (by unfold LED_PINS_SIZE; omega)
  exact ⟨i1, j1, by rw [e0, getElem?_led_pins i1], by rw [e1, getElem?_led_pins j1]⟩

/-- Witness of C12 at the cell `(27, 2)`: the positive pin is that of rung 25, the negative
pin that of rung 27. -/
theorem C12_witness :
    rungAt 27 2 < led_pins.length ∧ rungAt (27 + 1) 2 < led_pins.length ∧
      matrix_pins 27 2 0 = some (led_pins.getD (rungAt 27 2) 0) ∧
      matrix_pins 27 2 1 = some (led_pins.getD (rungAt (27 + 1) 2) 0) :=
  C12_grid_closed_form 27 2 (by decide) (by decide)

/-- Claim C13. In the program's configuration every slot `matrix_pins[r][c][t]` is stored
to exactly once during the whole pass: the list of the stores of the pass to the slot has
exactly one element, and the final value of the slot is the pin of that store. -/
theorem C13_every_slot_written_once (r c t : Nat) (hr : r < NUM_ROWS) (hc : c < NUM_COLS)
    (ht : t < 2) :
    ∃ ss, mapStores led_pins LED_PINS_SIZE NUM_ROWS NUM_COLS = .ok ss ∧
      ∃ s, storesTo ss r c t = [s] ∧ matrix_pins r c t = some s.pin := by
  have hr2 : r < 28 := hr
  refine ⟨_, mapStores_eq _ _ _ _ (by decide), ?_⟩
  obtain ⟨e0, e1⟩ := matrix_pins_eq hr hc
  rw [storesTo_allStores _ _ _ hc]
  interval_cases t
  · obtain ⟨hi, hw, hu⟩ := rungAt_spec (p := r) hc (by unfold LED_PINS_SIZE; omega)
    refine ⟨⟨rungAt r c, (walk NUM_ROWS (rungAt r c) c).direction, r, c, 0,
      led_pins.getD (rungAt r c) 0⟩, ?_, by rw [e0, getElem?_led_pins hi]⟩
    rw [flatMap_range_unique _ _ (rungAt r c) LED_PINS_SIZE, if_pos hi]
    · rw [storesTo_body_pos, if_pos ⟨hw, by unfold NUM_ROWS; omega⟩]
    · intro j hj hne
      rw [storesTo_body_pos, if_neg]
      rintro ⟨hwj, _⟩
      exact hne (hu j hj hwj)
  · obtain ⟨hi, hw, hu⟩ := rungAt_spec (p := r + 1) hc (by unfold LED_PINS_SIZE; omega)
    refine ⟨⟨rungAt (r + 1) c, (walk NUM_ROWS (rungAt (r + 1) c) c).direction, r, c, 1,
      led_pins.getD (rungAt (r + 1) c) 0⟩, ?_, by rw [e1, getElem?_led_pins hi]⟩
    rw [flatMap_range_unique _ _ (rungAt (r + 1) c) LED_PINS_SIZE, if_pos hi]
    · rw [storesTo_body_neg, if_pos hw]
    · intro j hj hne
      rw [storesTo_body_neg, if_neg]
      intro hwj
      exact hne (hu j hj hwj)

/-- Witness of C13 at the slot `matrix_pins[27][2][1]`. -/
theorem C13_witness :
    ∃ ss, mapStores led_pins LED_PINS_SIZE NUM_ROWS NUM_COLS = .ok ss ∧
      ∃ s, storesTo ss 27 2 1 = [s] ∧ matrix_pins 27 2 1 = some s.pin :=
  C13_every_slot_written_once 27 2 1 (by decide) (by decide) (by decide)

/-- Claim C14, as stated, fails. Rung 28 starts its first iteration with `row = 28 = rows`,
ascending, so the guard of line 32 is evaluated with `row == rows`; rung 27 reaches
`row = 28` descending at column 1, where the guard of line 51 is false and the else branch
of lines 55-57 flips its direction to ascending (column 2 starts with direction 0). -/
theorem C14_counterexample :
    28 < LED_PINS_SIZE ∧ 27 < LED_PINS_SIZE ∧ 2 < NUM_COLS ∧
      walk NUM_ROWS 28 0 = ⟨NUM_ROWS, 0⟩ ∧
      walk NUM_ROWS 27 1 = ⟨NUM_ROWS, 1⟩ ∧
      walk NUM_ROWS 27 2 = ⟨NUM_ROWS, 0⟩ :=
  ⟨by decide, by decide, by decide, rfl, rfl, rfl⟩

/-- Claim C14 (amended). In the program's configuration `row` never exceeds `rows = 28`,
and in every column exactly one rung starts its iteration with `row = 28`.  In an even
column that rung is ascending: the guard of line 32 is false, the rung performs no store
to a positive terminal in that iteration and moves up to row 27.  In an odd column that
rung is descending: the guard of line 51 is false and the else branch of lines 55-57 runs,
flipping the direction to ascending while `row` stays 28. -/
theorem C14_bottom_guards_live (c : Nat) (hc : c < NUM_COLS) :
    (∀ j, j < LED_PINS_SIZE → (walk NUM_ROWS j c).row ≤ NUM_ROWS) ∧
    ∃ i, i < LED_PINS_SIZE ∧ (walk NUM_ROWS i c).row = NUM_ROWS ∧
      (∀ j, j < LED_PINS_SIZE → (walk NUM_ROWS j c).row = NUM_ROWS → j = i) ∧
      (c % 2 = 0 →
        walk NUM_ROWS i c = ⟨NUM_ROWS, 0⟩ ∧ walk NUM_ROWS i (c + 1) = ⟨NUM_ROWS - 1, 0⟩ ∧
        ∀ r, ¬ writes (allStores led_pins LED_PINS_SIZE NUM_ROWS NUM_COLS) i r c 0) ∧
      (c % 2 = 1 →
        walk NUM_ROWS i c = ⟨NUM_ROWS, 1⟩ ∧ walk NUM_ROWS i (c + 1) = ⟨NUM_ROWS, 0⟩) := by
  refine ⟨fun j hj => walk_row_le (Nat.le_of_lt_succ hj) c, ?_⟩
  obtain ⟨hi, hw, hu⟩ := rungAt_spec (p := 28) hc (by decide)
  have hp := walk_parity NUM_ROWS (rungAt 28 c) c
  rw [hw] at hp
  refine ⟨rungAt 28 c, hi, hw, hu, ?_, ?_⟩
  · intro hc0
    have hd : (walk NUM_ROWS (rungAt 28 c) c).direction = 0 := by omega
    have hmk := walk_eq_mk hw hd
    refine ⟨hmk, by rw [walk_succ, hmk]; rfl, ?_⟩
    intro r hwr
    obtain ⟨_, _, h1, h2⟩ := writes_pos_iff.mp hwr
    rw [hw] at h1
    exact h2 h1.symm
  · intro hc1
    have hd : (walk NUM_ROWS (rungAt 28 c) c).direction = 1 := by omega
    have hmk := walk_eq_mk hw hd
    exact ⟨hmk, by rw [walk_succ, hmk]; rfl⟩

/-- Witness of C14 (amended) at column 1, where rung 27 is the rung at row 28. -/
theorem C14_witness :
    (∀ j, j < LED_PINS_SIZE → (walk NUM_ROWS j 1).row ≤ NUM_ROWS) ∧
    ∃ i, i < LED_PINS_SIZE ∧ (walk NUM_ROWS i 1).row = NUM_ROWS ∧
      (∀ j, j < LED_PINS_SIZE → (walk NUM_ROWS j 1).row = NUM_ROWS → j = i) ∧
      (1 % 2 = 0 →
        walk NUM_ROWS i 1 = ⟨NUM_ROWS, 0⟩ ∧ walk NUM_ROWS i (1 + 1) = ⟨NUM_ROWS - 1, 0⟩ ∧
        ∀ r, ¬ writes (allStores led_pins LED_PINS_SIZE NUM_ROWS NUM_COLS) i r 1 0) ∧
      (1 % 2 = 1 →
        walk NUM_ROWS i 1 = ⟨NUM_ROWS, 1⟩ ∧ walk NUM_ROWS i (1 + 1) = ⟨NUM_ROWS, 0⟩) :=
  C14_bottom_guards_live 1 (by decide)

/-- Claim C15. In the program as written (`LED_PINS_SIZE = 29`, `NUM_ROWS = 28`,
`NUM_COLS = 20`), for every rung `i` and column `c`: the read `led_pins[i]` of line 27 is
inside the table; `row` is at most 28 at the start of the iteration; and every store of
the iteration has its row index in `0 .. 27`, its column index in `0 .. 19` and its
terminal index in `0 .. 1`, the row index being `row` for the positive terminal and
`row - 1`, with `row ≥ 1`, for the negative one.  The whole pass therefore succeeds. -/
theorem C15_accesses_in_bounds (i c : Nat) (hi : i < LED_PINS_SIZE) (hc : c < NUM_COLS) :
    i < led_pins.length ∧ readPin led_pins i = .ok (led_pins.getD i 0) ∧
      (walk NUM_ROWS i c).row ≤ NUM_ROWS ∧
      (∀ s, s ∈ (body NUM_ROWS i (led_pins.getD i 0) c (walk NUM_ROWS i c)).1 →
        s.row < NUM_ROWS ∧ s.col < NUM_COLS ∧ s.term < 2 ∧
        (s.term = 0 → s.row = (walk NUM_ROWS i c).row) ∧
        (s.term = 1 → s.row + 1 = (walk NUM_ROWS i c).row)) ∧
      ∃ g, mapPass led_pins LED_PINS_SIZE NUM_ROWS NUM_COLS = .ok g := by
  have hle := walk_row_le (Nat.le_of_lt_succ hi : i ≤ NUM_ROWS) c
  refine ⟨hi, readPin_of_lt hi, hle, ?_, pass_config_ok⟩
  intro s hs
  rcases mem_body.mp hs with ⟨rfl, h⟩ | ⟨rfl, h⟩
  · refine ⟨?_, hc, by simp, fun _ => rfl, fun h1 => ?_⟩
    · simp only
      omega
    · simp at h1
  · refine ⟨?_, hc, by simp, fun h0 => ?_, fun _ => ?_⟩
    · simp only
      omega
    · simp at h0
    · simp only
      omega

/-- Witness of C15 at rung 28 and column 0, the iteration that starts with `row = 28`. -/
theorem C15_witness :
    28 < led_pins.length ∧ readPin led_pins 28 = .ok (led_pins.getD 28 0) ∧
      (walk NUM_ROWS 28 0).row ≤ NUM_ROWS ∧
      (∀ s, s ∈ (body NUM_ROWS 28 (led_pins.getD 28 0) 0 (walk NUM_ROWS 28 0)).1 →
        s.row < NUM_ROWS ∧ s.col < NUM_COLS ∧ s.term < 2 ∧
        (s.term = 0 → s.row = (walk NUM_ROWS 28 0).row) ∧
        (s.term = 1 → s.row + 1 = (walk NUM_ROWS 28 0).row)) ∧
      ∃ g, mapPass led_pins LED_PINS_SIZE NUM_ROWS NUM_COLS = .ok g :=
  C15_accesses_in_bounds 28 0 (by decide) (by decide)

/-- Claim C16. For every grid whose pins all lie in `0 .. 99` the serializer succeeds and
its output is the text of the `rows` lines in row order, every line being the `cols` cells
of its row in column order followed by a newline, every cell being the 8 characters
`(PP,NN) ` with both pins right-aligned in a field of 2 characters.  A line has
`8 * cols + 1` characters and the output has exactly `rows` newlines. -/
theorem C16_serializer_fixed_width (rows cols : Nat) (g : Grid) (P N : Nat → Nat → Nat)
    (h : ∀ r c, r < rows → c < cols → P r c ≤ 99 ∧ N r c ≤ 99 ∧
      slot g r c 0 = some (P r c : Int) ∧ slot g r c 1 = some (N r c : Int)) :
    serialize rows cols g = .ok (gridText rows cols P N) ∧
      (∀ r c, (cell8 (P r c) (N r c)).length = 8) ∧
      (∀ r, (lineText cols (P r) (N r)).length = 8 * cols + 1) ∧
      (gridText rows cols P N).length = rows * (8 * cols + 1) ∧
      (gridText rows cols P N).count '\n' = rows :=
  ⟨serialize_upto rows cols g P N h rows le_rfl, fun _ _ => length_cell8 _ _,
    fun _ => length_lineText _ _ _, length_gridText _ _ _ _,
    count_newline_gridText _ _ _ _ (fun r c hr hc => ⟨(h r c hr hc).1, (h r c hr hc).2.1⟩)⟩

/-- Witness of C16 at the grid of one row with the cells `(5, 4)` and `(12, 0)`: the output
is `( 5, 4) (12, 0) ` and a newline. -/
theorem C16_witness :
    serialize 1 2 [[(5, 4), (12, 0)]] =
        .ok ['(', ' ', '5', ',', ' ', '4', ')', ' ', '(', '1', '2', ',', ' ', '0', ')', ' ',
          '\n'] ∧
      serialize 1 2 [[(5, 4), (12, 0)]] =
        .ok (gridText 1 2 (fun _ c => if c = 0 then 5 else 12)
          (fun _ c => if c = 0 then 4 else 0)) :=
  ⟨rfl, (C16_serializer_fixed_width 1 2 [[(5, 4), (12, 0)]]
    (fun _ c => if c = 0 then 5 else 12) (fun _ c => if c = 0 then 4 else 0)
    (by
      intro r c hr hc
      interval_cases r
      interval_cases c <;> decide)).1⟩

end GenMatrixPins
